import Mathlib

/-!
Verification development for the `reader` repository.

The repository consists of two Python files:

* `src/reader.py` — a `Format` registry of output formatters (`json_format`,
  `md_format`, `txt_format`), a `format_date` date normalizer, a `load`
  function reading a stored extraction result from a file or stdin, and a
  `main` function replacing the `content` HTML string of a result with a
  bundle `{html, markdown, text}` computed via the `html2text` library and
  `html.unescape`.
* `src/postlight_parser.py` — `postlight_parser`, a wrapper invoking the
  external postlight-parser executable and mapping its exit code, stderr and
  JSON stdout payload to process termination or a returned result.

This file gives a shallow embedding of both files.  Python values are
embedded as the inductive `Val`; dicts as insertion-ordered association
lists; process side effects (prints to stderr/stdout, `sys.exit`) as
explicit records.  The library functions the code calls (`json.dumps`,
`json.loads`, `html.unescape`, `textwrap.dedent`, `datetime.strptime`,
`str.format`, and the `html2text.HTML2Text` converter) are modelled
executably; each model's doc comment states its scope.  The `html2text`
converter itself is not part of the repository and its source is not
available, so it is modelled from the specification's description of the
two converter configurations.
-/

/-- Character lists; all scanning functions of the embedding work on these. -/
abbrev Str := List Char

/-- Decimal digit character for a value below ten. -/
def digitChar (n : Nat) : Char := Char.ofNat (48 + n)

/-- Numeric value of a decimal digit character. -/
def digitVal (c : Char) : Nat := c.toNat - 48

/-- Decimal digits of `n`, most significant first; fuel-based so that it
reduces in the kernel (`fuel` must exceed the number of digits). -/
def natCharsAux : Nat → Nat → Str
  | 0, _ => []
  | f + 1, n => if n < 10 then [digitChar n] else natCharsAux f (n / 10) ++ [digitChar (n % 10)]

/-- Decimal representation of a natural number. -/
def natChars (n : Nat) : Str := natCharsAux (n + 1) n

/-- Decimal representation of an integer, with a leading minus sign when
negative; matches Python `str(int)` and `json.dumps(int)`. -/
def intChars : Int → Str
  | .ofNat n => natChars n
  | .negSucc n => '-' :: natChars (n + 1)

/-- Value of a list of decimal digit characters, most significant first. -/
def valOfDigits (ds : Str) : Nat := ds.foldl (fun a c => a * 10 + digitVal c) 0

/-- Left-pad the decimal representation of `n` with zeros to width `w`. -/
def padNum (w n : Nat) : Str :=
  let d := natChars n
  List.replicate (w - d.length) '0' ++ d

/-- Model of a Python `datetime.datetime` value as produced by
`datetime.strptime`: year, month, day, hour, minute, second, microsecond. -/
structure PyDateTime where
  year : Nat
  month : Nat
  day : Nat
  hour : Nat
  minute : Nat
  second : Nat
  usec : Nat
  deriving DecidableEq, Repr

/-- Model of Python `str(datetime.datetime(...))`: `YYYY-MM-DD HH:MM:SS`,
with a `.ffffff` microsecond suffix only when the microsecond is nonzero. -/
def pyDateTimeStr (d : PyDateTime) : Str :=
  padNum 4 d.year ++ '-' :: padNum 2 d.month ++ '-' :: padNum 2 d.day ++ ' ' ::
  padNum 2 d.hour ++ ':' :: padNum 2 d.minute ++ ':' :: padNum 2 d.second ++
  (if d.usec = 0 then [] else '.' :: padNum 6 d.usec)

/-- Expect a single fixed character at the head of the input. -/
def expectChar (c : Char) : Str → Option Str
  | x :: r => if x = c then some r else none
  | [] => none

/-- Read exactly `w` decimal digits and return their value and the rest. -/
def parseFixedNat (w : Nat) (l : Str) : Option (Nat × Str) :=
  let ds := l.take w
  if ds.length = w ∧ ds.all Char.isDigit then some (valOfDigits ds, l.drop w) else none

/-- Parse exactly `w` digits followed by a fixed separator character. -/
def parseNatSep (w : Nat) (sep : Char) (l : Str) : Option (Nat × Str) :=
  match parseFixedNat w l with
  | some (n, l2) => (expectChar sep l2).map (fun l3 => (n, l3))
  | none => none

/-- Parse the `%f` fractional field: 1 to 6 digits, zero-padded on the
right to microseconds. -/
def parseFrac (l : Str) : Option (Nat × Str) :=
  let fd := l.takeWhile Char.isDigit
  if fd.length = 0 ∨ 6 < fd.length then none
  else some (valOfDigits fd * 10 ^ (6 - fd.length), l.dropWhile Char.isDigit)

/-- Range validation performed by the `datetime` constructor; the
day-of-month upper bound is the uniform 31 rather than the calendar-aware
bound (no claim exercises the difference). -/
def mkDate (y mo d h mi se us : Nat) : Option PyDateTime :=
  if 1 ≤ mo ∧ mo ≤ 12 ∧ 1 ≤ d ∧ d ≤ 31 ∧ h ≤ 23 ∧ mi ≤ 59 ∧ se ≤ 59 then
    some ⟨y, mo, d, h, mi, se, us⟩
  else none

/-- Time-of-day half of the `strptime` model: `HH:MM:SS.ffffffZ` at end of
input. -/
def parseTimePart (y mo d : Nat) (l : Str) : Option PyDateTime :=
  match parseNatSep 2 ':' l with
  | none => none
  | some (h, l) =>
  match parseNatSep 2 ':' l with
  | none => none
  | some (mi, l) =>
  match parseNatSep 2 '.' l with
  | none => none
  | some (se, l) =>
  match parseFrac l with
  | none => none
  | some (us, l) =>
  match expectChar 'Z' l with
  | some [] => mkDate y mo d h mi se us
  | _ => none

/-- Model of `datetime.strptime(s, "%Y-%m-%dT%H:%M:%S.%fZ")` as called by
`format_date` in `reader.py`.  Scope of the model: the canonical
zero-padded form the external tool emits (4-digit year; 2-digit month, day,
hour, minute, second; 1 to 6 fractional digits).  Returns `none` where
CPython raises `ValueError`. -/
def parseDatePub (s : String) : Option PyDateTime :=
  match parseNatSep 4 '-' s.toList with
  | none => none
  | some (y, l) =>
  match parseNatSep 2 '-' l with
  | none => none
  | some (mo, l) =>
  match parseNatSep 2 'T' l with
  | none => none
  | some (d, l) => parseTimePart y mo d l

/-- Model of the Python values the program manipulates: JSON data as decoded
by `json.loads` (strings, integers, booleans, null, arrays, objects; JSON
floats are outside the modelled scope, no claim involves them), plus
`datetime.datetime` objects, which `format_date` stores back into a result
dict (`pydate`). -/
inductive Val where
  | str (s : String)
  | num (i : Int)
  | bool (b : Bool)
  | null
  | pydate (d : PyDateTime)
  | arr (xs : List Val)
  | obj (fs : List (String × Val))

/-- Model of a Python `dict` with string keys: an insertion-ordered
association list.  The program's dicts come from `json.loads`, whose keys
are unique, and are updated only through `dictSet`. -/
abbrev PyObj := List (String × Val)

/-- Model of Python `d.get(key)` / `d[key]` lookup. -/
def dictGet {α : Type} : List (String × α) → String → Option α
  | [], _ => none
  | (k, v) :: d, key => if k = key then some v else dictGet d key

/-- Model of Python `d[key] = v` (and `d.update({key: v})`): replaces the
value in place when the key is present, appends a new entry otherwise. -/
def dictSet {α : Type} : List (String × α) → String → α → List (String × α)
  | [], key, v => [(key, v)]
  | (k, w) :: d, key, v => if k = key then (k, v) :: d else (k, w) :: dictSet d key v

/-- Keys of a dict, in insertion order. -/
def dictKeys {α : Type} (d : List (String × α)) : List String := d.map Prod.fst

/-- Model of `name.rsplit('_', 1)[0]` as performed by `Format.__init__` in
`reader.py`: the part of `name` before its last underscore; `none` models
the `ValueError` the unpacking raises when `name` has no underscore. -/
def rsplitKey (name : String) : Option String :=
  if name.toList.contains '_' then
    some (String.mk ((name.toList.reverse.dropWhile (· ≠ '_')).tail.reverse))
  else none

/-- Model of the decorator body of `Format.__init__` (reader.py lines
33-36): derive the key from the decorated function's name via
`rsplit('_', 1)` and update the class-level `formatter` dict.  When the name
has no underscore the decorator raises before updating, so the registry is
returned unchanged. -/
def Format.register {α : Type} (reg : List (String × α)) (fname : String) (f : α) :
    List (String × α) :=
  match rsplitKey fname with
  | some k => dictSet reg k f
  | none => reg

/-- Escape a character as `json.dumps` does inside string literals
(`ensure_ascii=False`): only the quote, backslash and the common control
characters need escaping; every other character, ASCII or not, is emitted
verbatim. -/
def escChar (c : Char) : Str :=
  if c = '"' then ['\\', '"']
  else if c = '\\' then ['\\', '\\']
  else if c = '\n' then ['\\', 'n']
  else if c = '\t' then ['\\', 't']
  else if c = '\r' then ['\\', 'r']
  else [c]

/-- Serialization of a JSON string literal: quote, escaped body, quote. -/
def serStrChars (s : String) : Str :=
  '"' :: (s.data.map escChar).flatten ++ ['"']

mutual

/-- Model of the serialization performed by `json.dumps(v, ensure_ascii=False)`
with the default separators; `none` models the `TypeError` raised on a
`datetime` value.  Scope: integers (no floats), and control characters other
than tab, newline and carriage return are outside the modelled scope. -/
def serVal : Val → Option Str
  | .str s => some (serStrChars s)
  | .num i => some (intChars i)
  | .bool b => some (if b then ['t', 'r', 'u', 'e'] else ['f', 'a', 'l', 's', 'e'])
  | .null => some ['n', 'u', 'l', 'l']
  | .pydate _ => none
  | .arr xs => (serItems xs).map (fun l => '[' :: l ++ [']'])
  | .obj fs => (serFields fs).map (fun l => '\x7b' :: l ++ ['\x7d'])

/-- Comma-and-space separated serialization of array items. -/
def serItems : List Val → Option Str
  | [] => some []
  | v :: vs => do
      let a ← serVal v
      let b ← serItems vs
      return a ++ (if vs.isEmpty then [] else [',', ' ']) ++ b

/-- Comma-and-space separated serialization of object members, each as
`"key": value`. -/
def serFields : List (String × Val) → Option Str
  | [] => some []
  | (k, v) :: fs => do
      let a ← serVal v
      let b ← serFields fs
      return serStrChars k ++ ':' :: ' ' :: a ++ (if fs.isEmpty then [] else [',', ' ']) ++ b

end

/-- Model of `json.dumps(v, ensure_ascii=False)` as called by `json_format`. -/
def dumps (v : Val) : Option String := (serVal v).map String.mk

/-- JSON whitespace. -/
def isWsChar (c : Char) : Bool := c == ' ' || c == '\t' || c == '\n' || c == '\r'

/-- Drop leading JSON whitespace. -/
def skipWs (l : Str) : Str := l.dropWhile isWsChar

/-- Unescape one character following a backslash in a JSON string literal;
`\uXXXX` escapes are outside the modelled scope (the serializer never emits
them for the characters the model admits). -/
def escCharOf (e : Char) : Option Char :=
  if e = '"' then some '"'
  else if e = '\\' then some '\\'
  else if e = '/' then some '/'
  else if e = 'n' then some '\n'
  else if e = 't' then some '\t'
  else if e = 'r' then some '\r'
  else if e = 'b' then some (Char.ofNat 8)
  else if e = 'f' then some (Char.ofNat 12)
  else none

/-- Parse the body of a JSON string literal after the opening quote, up to
and including the closing quote; rejects raw control characters as
`json.loads` does in strict mode. -/
def parseStrBody : Str → Option (Str × Str)
  | [] => none
  | '"' :: r => some ([], r)
  | '\\' :: e :: r => do
      let c ← escCharOf e
      let (s, rest) ← parseStrBody r
      return (c :: s, rest)
  | c :: r =>
      if c.toNat < 32 then none
      else do
        let (s, rest) ← parseStrBody r
        return (c :: s, rest)

/-- Parse a JSON integer (optional minus sign, then digits).  Scope: floats
and the leading-zero restriction of real JSON are not modelled. -/
def parseNum (l : Str) : Option (Int × Str) :=
  match l with
  | '-' :: r =>
      let ds := r.takeWhile Char.isDigit
      if ds.isEmpty then none else some (-(valOfDigits ds : Int), r.dropWhile Char.isDigit)
  | _ =>
      let ds := l.takeWhile Char.isDigit
      if ds.isEmpty then none else some ((valOfDigits ds : Int), l.dropWhile Char.isDigit)

/-- Python dict construction from a list of parsed key/value pairs: later
duplicate keys overwrite earlier ones, as in `json.loads`. -/
def buildDict (ps : List (String × Val)) : PyObj :=
  ps.foldl (fun d p => dictSet d p.1 p.2) []

/-- Parse the items of a nonempty JSON array after the opening bracket,
using `pv` for the element values; consumes the closing bracket.  The fuel
bounds the number of items. -/
def parseItems (pv : Str → Option (Val × Str)) : Nat → Str → Option (List Val × Str)
  | 0, _ => none
  | f + 1, l => do
      let (v, r) ← pv l
      match skipWs r with
      | c :: r2 =>
          if c = ',' then (parseItems pv f r2).map (fun p => (v :: p.1, p.2))
          else if c = ']' then some ([v], r2)
          else none
      | [] => none

/-- Parse the members of a nonempty JSON object after the opening brace,
using `pv` for the member values; consumes the closing brace. -/
def parsePairs (pv : Str → Option (Val × Str)) : Nat → Str → Option (List (String × Val) × Str)
  | 0, _ => none
  | f + 1, l =>
      match skipWs l with
      | c :: r =>
          if c = '"' then do
            let (k, r1) ← parseStrBody r
            match skipWs r1 with
            | c2 :: r2 =>
                if c2 = ':' then do
                  let (v, r3) ← pv r2
                  match skipWs r3 with
                  | c3 :: r4 =>
                      if c3 = ',' then
                        (parsePairs pv f r4).map (fun p => ((String.mk k, v) :: p.1, p.2))
                      else if c3 = '\x7d' then some ([(String.mk k, v)], r4)
                      else none
                  | [] => none
                else none
            | [] => none
          else none
      | [] => none

/-- Fuel-bounded recursive-descent parser for one JSON value, modelling the
grammar accepted by `json.loads` (within the scope notes above). -/
def parseVal : Nat → Str → Option (Val × Str)
  | 0, _ => none
  | f + 1, l =>
      match skipWs l with
      | [] => none
      | c :: r =>
          if c = '"' then (parseStrBody r).map (fun p => (Val.str (String.mk p.1), p.2))
          else if c = '[' then
            (match skipWs r with
             | ']' :: r2 => some (Val.arr [], r2)
             | r2 => (parseItems (parseVal f) f r2).map (fun p => (Val.arr p.1, p.2)))
          else if c = '\x7b' then
            (match skipWs r with
             | '\x7d' :: r2 => some (Val.obj [], r2)
             | r2 => (parsePairs (parseVal f) f r2).map (fun p => (Val.obj (buildDict p.1), p.2)))
          else if c = 'n' then
            (match r with
             | 'u' :: 'l' :: 'l' :: r2 => some (Val.null, r2)
             | _ => none)
          else if c = 't' then
            (match r with
             | 'r' :: 'u' :: 'e' :: r2 => some (Val.bool true, r2)
             | _ => none)
          else if c = 'f' then
            (match r with
             | 'a' :: 'l' :: 's' :: 'e' :: r2 => some (Val.bool false, r2)
             | _ => none)
          else (parseNum (c :: r)).map (fun p => (Val.num p.1, p.2))

/-- Model of `json.loads(s)`: parse one value and require only whitespace to
remain. -/
def loads (s : String) : Option Val :=
  match parseVal (s.length + 1) s.data with
  | some (v, rest) => if (skipWs rest).isEmpty then some v else none
  | none => none

mutual

/-- Node count of a value; used to bound the parser fuel. -/
def vsize : Val → Nat
  | .str _ => 1
  | .num _ => 1
  | .bool _ => 1
  | .null => 1
  | .pydate _ => 1
  | .arr xs => 1 + lsize xs
  | .obj fs => 1 + fsize fs

/-- Node count of a list of array items. -/
def lsize : List Val → Nat
  | [] => 0
  | v :: vs => 1 + vsize v + lsize vs

/-- Node count of a list of object members. -/
def fsize : List (String × Val) → Nat
  | [] => 0
  | (_, v) :: fs => 1 + vsize v + fsize fs

end

/-- Characters the JSON round-trip model admits inside strings: everything
from space upwards (ASCII or not) plus tab, newline, carriage return. -/
def wfChar (c : Char) : Bool := 32 ≤ c.toNat || c == '\n' || c == '\t' || c == '\r'

/-- Strings the JSON round-trip model admits. -/
def wfStr (s : String) : Bool := s.data.all wfChar

mutual

/-- Values within the JSON round-trip scope: no `datetime` objects, strings
of admissible characters, and object keys pairwise distinct (as any dict
produced by `json.loads` satisfies). -/
def wfVal : Val → Bool
  | .str s => wfStr s
  | .num _ => true
  | .bool _ => true
  | .null => true
  | .pydate _ => false
  | .arr xs => wfItems xs
  | .obj fs => wfFields fs

/-- Admissibility of array items. -/
def wfItems : List Val → Bool
  | [] => true
  | v :: vs => wfVal v && wfItems vs

/-- Admissibility of object members, including key freshness. -/
def wfFields : List (String × Val) → Bool
  | [] => true
  | (k, v) :: fs => wfStr k && wfVal v && !(dictKeys fs).contains k && wfFields fs

end

mutual

/-- Simultaneous induction over `Val` and the lists nested in it. -/
def Val.inductionOn {P : Val → Prop} {Q : List Val → Prop} {R : List (String × Val) → Prop}
    (hstr : ∀ s, P (.str s)) (hnum : ∀ i, P (.num i)) (hbool : ∀ b, P (.bool b))
    (hnull : P .null) (hpydate : ∀ d, P (.pydate d))
    (harr : ∀ xs, Q xs → P (.arr xs)) (hobj : ∀ fs, R fs → P (.obj fs))
    (hqnil : Q []) (hqcons : ∀ v vs, P v → Q vs → Q (v :: vs))
    (hrnil : R []) (hrcons : ∀ k v fs, P v → R fs → R ((k, v) :: fs)) :
    ∀ v, P v
  | .str s => hstr s
  | .num i => hnum i
  | .bool b => hbool b
  | .null => hnull
  | .pydate d => hpydate d
  | .arr xs =>
      harr xs (Val.inductionOnL hstr hnum hbool hnull hpydate harr hobj hqnil hqcons hrnil hrcons xs)
  | .obj fs =>
      hobj fs (Val.inductionOnF hstr hnum hbool hnull hpydate harr hobj hqnil hqcons hrnil hrcons fs)

/-- List part of the simultaneous induction over `Val`. -/
def Val.inductionOnL {P : Val → Prop} {Q : List Val → Prop} {R : List (String × Val) → Prop}
    (hstr : ∀ s, P (.str s)) (hnum : ∀ i, P (.num i)) (hbool : ∀ b, P (.bool b))
    (hnull : P .null) (hpydate : ∀ d, P (.pydate d))
    (harr : ∀ xs, Q xs → P (.arr xs)) (hobj : ∀ fs, R fs → P (.obj fs))
    (hqnil : Q []) (hqcons : ∀ v vs, P v → Q vs → Q (v :: vs))
    (hrnil : R []) (hrcons : ∀ k v fs, P v → R fs → R ((k, v) :: fs)) :
    ∀ xs, Q xs
  | [] => hqnil
  | v :: vs =>
      hqcons v vs (Val.inductionOn hstr hnum hbool hnull hpydate harr hobj hqnil hqcons hrnil hrcons v)
        (Val.inductionOnL hstr hnum hbool hnull hpydate harr hobj hqnil hqcons hrnil hrcons vs)

/-- Member-list part of the simultaneous induction over `Val`. -/
def Val.inductionOnF {P : Val → Prop} {Q : List Val → Prop} {R : List (String × Val) → Prop}
    (hstr : ∀ s, P (.str s)) (hnum : ∀ i, P (.num i)) (hbool : ∀ b, P (.bool b))
    (hnull : P .null) (hpydate : ∀ d, P (.pydate d))
    (harr : ∀ xs, Q xs → P (.arr xs)) (hobj : ∀ fs, R fs → P (.obj fs))
    (hqnil : Q []) (hqcons : ∀ v vs, P v → Q vs → Q (v :: vs))
    (hrnil : R []) (hrcons : ∀ k v fs, P v → R fs → R ((k, v) :: fs)) :
    ∀ fs, R fs
  | [] => hrnil
  | (k, v) :: fs =>
      hrcons k v fs (Val.inductionOn hstr hnum hbool hnull hpydate harr hobj hqnil hqcons hrnil hrcons v)
        (Val.inductionOnF hstr hnum hbool hnull hpydate harr hobj hqnil hqcons hrnil hrcons fs)

end

/-- Named character references resolved by the model (a subset of the HTML5
table; semicolon-terminated forms only; `html.unescape` additionally
resolves many more names, and some semicolonless forms, none of which the
claims involve). -/
def namedRef (name : Str) : Option Char :=
  if name = ['a', 'm', 'p'] then some '&'
  else if name = ['l', 't'] then some '<'
  else if name = ['g', 't'] then some '>'
  else if name = ['q', 'u', 'o', 't'] then some '"'
  else if name = ['a', 'p', 'o', 's'] then some (Char.ofNat 39)
  else if name = ['n', 'b', 's', 'p'] then some (Char.ofNat 160)
  else none

/-- Hexadecimal digit test. -/
def isHexDigitC (c : Char) : Bool :=
  c.isDigit || ('a' ≤ c && c ≤ 'f') || ('A' ≤ c && c ≤ 'F')

/-- Hexadecimal digit value. -/
def hexDigitVal (c : Char) : Nat :=
  if c.isDigit then digitVal c
  else if 'a' ≤ c && c ≤ 'f' then c.toNat - 87
  else c.toNat - 55

/-- Value of a list of hexadecimal digits. -/
def valOfHexDigits (ds : Str) : Nat := ds.foldl (fun a c => a * 16 + hexDigitVal c) 0

/-- Character for a numeric reference code point; invalid code points map to
U+FFFD as in `html.unescape`. -/
def charOfCode (n : Nat) : Char :=
  if n.isValidChar then Char.ofNat n else Char.ofNat 0xfffd

/-- Match one character reference immediately after a `&`: named
(`amp;` ...), decimal (`#97;`) or hexadecimal (`#x61;`); returns the decoded
character and the remaining input, or `none` when no reference matches (the
`&` then stands for itself). -/
def matchCharref : Str → Option (Char × Str)
  | '#' :: t =>
      (match t with
       | 'x' :: t2 =>
           (let ds := t2.takeWhile isHexDigitC
            match t2.dropWhile isHexDigitC with
            | ';' :: r => if ds.isEmpty then none else some (charOfCode (valOfHexDigits ds), r)
            | _ => none)
       | 'X' :: t2 =>
           (let ds := t2.takeWhile isHexDigitC
            match t2.dropWhile isHexDigitC with
            | ';' :: r => if ds.isEmpty then none else some (charOfCode (valOfHexDigits ds), r)
            | _ => none)
       | _ =>
           (let ds := t.takeWhile Char.isDigit
            match t.dropWhile Char.isDigit with
            | ';' :: r => if ds.isEmpty then none else some (charOfCode (valOfDigits ds), r)
            | _ => none))
  | l =>
      (let nm := l.takeWhile Char.isAlphanum
       match l.dropWhile Char.isAlphanum with
       | ';' :: r => (namedRef nm).map (fun c => (c, r))
       | _ => none)

/-- Model of `html.unescape` (applied by `main` to both converter outputs):
one left-to-right pass replacing each character reference by its character;
an unmatched `&` stands for itself.  Fuel-based for kernel reducibility;
every step consumes at least one character, so `l.length` fuel suffices. -/
def unescapeAux : Nat → Str → Str
  | 0, l => l
  | _ + 1, [] => []
  | f + 1, '&' :: r =>
      (match matchCharref r with
       | some (c, r2) => c :: unescapeAux f r2
       | none => '&' :: unescapeAux f r)
  | f + 1, c :: r => c :: unescapeAux f r

/-- Unescape a character list. -/
def unescapeChars (l : Str) : Str := unescapeAux l.length l

/-- Model of `html.unescape` on strings. -/
def unescape (s : String) : String := String.mk (unescapeChars s.data)

/-- Tokens of the modelled HTML tokenizer: one character of character data
(references already resolved when `convert_charrefs` is set), or a tag with
its closing flag, lowercased name and raw attribute text. -/
inductive HTok where
  | ch (c : Char)
  | tag (closing : Bool) (name : Str) (attrs : Str)

/-- Build a tag token from the text between `<` and `>`. -/
def parseTagTok (inner : Str) : HTok :=
  match inner with
  | '/' :: r => .tag true ((r.takeWhile Char.isAlphanum).map Char.toLower) []
  | _ =>
      .tag false ((inner.takeWhile Char.isAlphanum).map Char.toLower)
        (inner.dropWhile Char.isAlphanum)

/-- Fuel-based HTML tokenizer: tags are the runs between `<` and `>` (a `<`
never followed by `>` is literal text), `&` starts a character reference
when `cr` is set, everything else is character data.  Every step consumes at
least one character. -/
def tokenizeAux (cr : Bool) : Nat → Str → List HTok
  | 0, _ => []
  | _ + 1, [] => []
  | f + 1, '<' :: r =>
      (let inner := r.takeWhile (· ≠ '>')
       match r.dropWhile (· ≠ '>') with
       | '>' :: rest => parseTagTok inner :: tokenizeAux cr f rest
       | _ => .ch '<' :: tokenizeAux cr f r)
  | f + 1, '&' :: r =>
      if cr then
        (match matchCharref r with
         | some (c, r2) => .ch c :: tokenizeAux cr f r2
         | none => .ch '&' :: tokenizeAux cr f r)
      else .ch '&' :: tokenizeAux cr f r
  | f + 1, c :: r => .ch c :: tokenizeAux cr f r

/-- Tokenize a character list. -/
def tokenize (cr : Bool) (l : Str) : List HTok := tokenizeAux cr l.length l

/-- Extract a double-quoted attribute value from raw attribute text: finds
`key="` and takes the characters up to the closing quote. -/
def getAttr : Str → Str → Option Str
  | [], _ => none
  | l@(_ :: r), key =>
      if (key ++ ['=', '"']).isPrefixOf l then
        some ((l.drop (key.length + 2)).takeWhile (· ≠ '"'))
      else getAttr r key

/-- Modelled from the spec: the `html2text.HTML2Text` converter object, with
the option fields `reader.py` assigns.  The converter is an external library
the specification treats as a black box mapping an HTML string plus options
to a text string; its source is not part of the repository, so its behavior
is modelled from the specification's description of the two configurations:
character references are resolved during the HTML parse (`convert_charrefs`);
by default emphasis, images and hyperlinks are rendered in Markdown syntax,
and with `ignore_emphasis` / `ignore_images` / `ignore_links` set they are
suppressed; block-level elements separate paragraphs; `body_width` wraps
output lines at that width, `none` meaning no wrapping. -/
structure HTML2Text where
  body_width : Option Nat := none
  ignore_emphasis : Bool := false
  ignore_images : Bool := false
  ignore_links : Bool := false
  convert_charrefs : Bool := true

/-- Block-level elements: opening or closing one of these ends the current
paragraph in the modelled converter. -/
def isBlockTag (name : Str) : Bool :=
  name = ['p'] || name = ['d', 'i', 'v'] || name = ['b', 'r'] ||
  name = ['h', '1'] || name = ['h', '2'] || name = ['h', '3'] ||
  name = ['h', '4'] || name = ['h', '5'] || name = ['h', '6'] ||
  name = ['u', 'l'] || name = ['o', 'l'] || name = ['l', 'i'] ||
  name = ['t', 'a', 'b', 'l', 'e'] || name = ['t', 'r'] || name = ['t', 'd'] ||
  name = ['t', 'h'] || name = ['h', 'r'] || name = ['p', 'r', 'e'] ||
  name = ['b', 'l', 'o', 'c', 'k', 'q', 'u', 'o', 't', 'e']

/-- Converter state: finished paragraphs, the paragraph being accumulated,
and the stack of `href` values of currently open links. -/
structure ConvState where
  paras : List Str
  cur : Str
  links : List Str

/-- One converter step for one token.  Character data is appended to the
current paragraph; block tags flush it; `b`/`strong` emit `**` and `i`/`em`
emit `_` unless `ignore_emphasis`; `a` emits `[` ... `](href)` unless
`ignore_links`; `img` emits `![alt](src)` unless `ignore_images`; all other
tags are dropped. -/
def convStep (o : HTML2Text) (st : ConvState) : HTok → ConvState
  | .ch c => { st with cur := st.cur ++ [c] }
  | .tag closing name attrs =>
      if isBlockTag name then
        if st.cur.isEmpty then st else { st with paras := st.paras ++ [st.cur], cur := [] }
      else if name = ['b'] || name = ['s', 't', 'r', 'o', 'n', 'g'] then
        if o.ignore_emphasis then st else { st with cur := st.cur ++ ['*', '*'] }
      else if name = ['i'] || name = ['e', 'm'] then
        if o.ignore_emphasis then st else { st with cur := st.cur ++ ['_'] }
      else if name = ['a'] then
        if o.ignore_links then st
        else if closing then
          match st.links with
          | h :: t =>
              { st with
                cur := st.cur ++ ']' :: '(' :: h ++ [')']
                links := t }
          | [] => st
        else
          { st with
            cur := st.cur ++ ['[']
            links := ((getAttr attrs ['h', 'r', 'e', 'f']).getD []) :: st.links }
      else if name = ['i', 'm', 'g'] then
        if o.ignore_images || closing then st
        else
          { st with cur := st.cur ++ '!' :: '[' :: ((getAttr attrs ['a', 'l', 't']).getD []) ++
              ']' :: '(' :: ((getAttr attrs ['s', 'r', 'c']).getD []) ++ [')'] }
      else st

/-- Whitespace for word-wrapping purposes. -/
def isSpaceC (c : Char) : Bool := c == ' ' || c == '\n' || c == '\t' || c == '\r'

/-- Split a paragraph into whitespace-separated words (fuel-based). -/
def splitWordsAux : Nat → Str → List Str
  | 0, _ => []
  | _ + 1, [] => []
  | f + 1, c :: r =>
      if isSpaceC c then splitWordsAux f r
      else (c :: r.takeWhile (fun x => !isSpaceC x)) ::
        splitWordsAux f (r.dropWhile (fun x => !isSpaceC x))

/-- Split a paragraph into words. -/
def splitWords (l : Str) : List Str := splitWordsAux l.length l

/-- Join pieces with a separator (the model's own `str.join`). -/
def joinSep (sep : Str) : List Str → Str
  | [] => []
  | [x] => x
  | x :: xs => x ++ sep ++ joinSep sep xs

/-- Greedy line-filling: groups words into lines of at most `w` characters
counting single separating spaces (a word longer than `w` gets its own
line). -/
def chunkWordsAux (w : Nat) : List Str → List Str → Nat → List (List Str)
  | [], cur, _ => if cur.isEmpty then [] else [cur]
  | x :: xs, cur, len =>
      if cur.isEmpty then chunkWordsAux w xs [x] x.length
      else if len + 1 + x.length ≤ w then chunkWordsAux w xs (cur ++ [x]) (len + 1 + x.length)
      else cur :: chunkWordsAux w xs [x] x.length

/-- Wrap one paragraph at width `w`: words joined by spaces within a line,
lines joined by newlines. -/
def wrapPara (w : Nat) (p : Str) : Str :=
  joinSep ['\n'] ((chunkWordsAux w (splitWords p) [] 0).map (joinSep [' ']))

/-- Conversion of an HTML character list under the given options: tokenize,
fold the converter step from the empty state, flush the last paragraph,
optionally wrap, and join paragraphs with blank lines. -/
def handleChars (o : HTML2Text) (l : Str) : Str :=
  let st := (tokenize o.convert_charrefs l).foldl (convStep o) ⟨[], [], []⟩
  let paras := st.paras ++ (if st.cur.isEmpty then [] else [st.cur])
  let paras := match o.body_width with
    | some w => paras.map (wrapPara w)
    | none => paras
  joinSep ['\n', '\n'] paras ++ ['\n']

/-- Model of `HTML2Text.handle` on strings. -/
def HTML2Text.handle (o : HTML2Text) (html : String) : String :=
  String.mk (handleChars o html.data)

mutual

/-- Model of Python `repr(v)` for the embedded values (strings in quotes,
containers recursively; the `datetime` display form stands in for its
`repr`, which no claim exercises). -/
def reprVal : Val → Str
  | .str s => Char.ofNat 39 :: s.data ++ [Char.ofNat 39]
  | .num i => intChars i
  | .bool b => if b then ['T', 'r', 'u', 'e'] else ['F', 'a', 'l', 's', 'e']
  | .null => ['N', 'o', 'n', 'e']
  | .pydate d => pyDateTimeStr d
  | .arr xs => '[' :: reprItems xs ++ [']']
  | .obj fs => '\x7b' :: reprFields fs ++ ['\x7d']

/-- Comma-separated `repr` of list items. -/
def reprItems : List Val → Str
  | [] => []
  | v :: vs => reprVal v ++ (if vs.isEmpty then [] else [',', ' ']) ++ reprItems vs

/-- Comma-separated `repr` of dict members. -/
def reprFields : List (String × Val) → Str
  | [] => []
  | (k, v) :: fs =>
      Char.ofNat 39 :: k.data ++ Char.ofNat 39 :: ':' :: ' ' :: reprVal v ++
        (if fs.isEmpty then [] else [',', ' ']) ++ reprFields fs

end

/-- Model of Python `str(v)` as used by template substitution: strings
verbatim, datetimes in display form, `repr` otherwise. -/
def strOfVal : Val → Str
  | .str s => s.data
  | v => reprVal v

/-- Model of `template.format(**obj)` for templates using plain `{name}`
fields (the only form the source templates use): each field is replaced by
`str(obj[name])`; a missing key (`KeyError`) or malformed template yields
`none`. -/
def pyFormatAux (o : PyObj) : Nat → Str → Option Str
  | 0, _ => none
  | _ + 1, [] => some []
  | f + 1, '\x7b' :: '\x7b' :: r => (pyFormatAux o f r).map (fun t => '\x7b' :: t)
  | f + 1, '\x7d' :: '\x7d' :: r => (pyFormatAux o f r).map (fun t => '\x7d' :: t)
  | f + 1, '\x7b' :: r =>
      (let nm := r.takeWhile (· ≠ '\x7d')
       match r.dropWhile (· ≠ '\x7d') with
       | '\x7d' :: r2 => do
           let v ← dictGet o (String.mk nm)
           let t ← pyFormatAux o f r2
           return strOfVal v ++ t
       | _ => none)
  | _ + 1, '\x7d' :: _ => none
  | f + 1, c :: r => (pyFormatAux o f r).map (fun t => c :: t)

/-- Model of `template.format(**obj)` on strings. -/
def pyFormat (tmpl : String) (o : PyObj) : Option String :=
  (pyFormatAux o tmpl.length tmpl.data).map String.mk

/-- Split a character list at newlines, as Python `str.split('\n')`. -/
def splitLinesAux : Nat → Str → List Str
  | 0, l => [l]
  | f + 1, l =>
      (let line := l.takeWhile (· ≠ '\n')
       match l.dropWhile (· ≠ '\n') with
       | '\n' :: rest => line :: splitLinesAux f rest
       | _ => [line])

/-- Split a character list at newlines. -/
def splitLines (l : Str) : List Str := splitLinesAux l.length l

/-- Indentation characters considered by `textwrap.dedent`. -/
def isIndentChar (c : Char) : Bool := c == ' ' || c == '\t'

/-- Longest common prefix of two character lists. -/
def commonPrefix : Str → Str → Str
  | x :: xs, y :: ys => if x = y then x :: commonPrefix xs ys else []
  | _, _ => []

/-- Model of `textwrap.dedent`: lines consisting solely of whitespace are
normalized to empty, the longest common leading-whitespace margin of the
remaining lines is computed, and that margin is removed from the start of
every line carrying it. -/
def dedentChars (l : Str) : Str :=
  let ls := (splitLines l).map (fun x => if !x.isEmpty && x.all isIndentChar then [] else x)
  let indents := (ls.filter (fun x => !x.isEmpty)).map (List.takeWhile isIndentChar)
  let margin := match indents with
    | [] => []
    | i :: rest => rest.foldl commonPrefix i
  joinSep ['\n'] (ls.map (fun x => if margin.isPrefixOf x then x.drop margin.length else x))

/-- Model of `textwrap.dedent` on strings. -/
def dedent (s : String) : String := String.mk (dedentChars s.data)

/-- Embedding of `format_date` (reader.py lines 41-47).  A missing key or a
JSON `null` leaves the dict unchanged (`obj.get` yields Python `None`); a
string value is parsed with `strptime` and the resulting datetime written
back in place; `none` models the uncaught `ValueError` on an unparseable
string or the `TypeError` when the value is not a string (e.g. an
already-converted datetime). -/
def format_date (obj : PyObj) : Option PyObj :=
  match dictGet obj "date_published" with
  | none => some obj
  | some .null => some obj
  | some (.str s) => (parseDatePub s).map (fun dt => dictSet obj "date_published" (.pydate dt))
  | some _ => none

/-- Formatters map the result dict to the output string together with the
(possibly mutated) dict; `none` models an uncaught exception. -/
def Formatter := PyObj → Option (String × PyObj)

/-- Embedding of `json_format` (reader.py lines 49-52):
`json.dumps(obj, ensure_ascii=False)`; the dict is not mutated. -/
def json_format : Formatter := fun obj => (dumps (.obj obj)).map (fun s => (s, obj))

/-- Template literal of `md_format` (reader.py lines 58-63), verbatim
(including the two trailing spaces on the date and author lines). -/
def mdTemplate : String :=
  "\n    date: {date_published}  \n    author(s): {author}  \n    \n    # [{title}]({url})\n    "

/-- Template literal of `txt_format` (reader.py lines 73-79), verbatim. -/
def txtTemplate : String :=
  "\n    url: {url}\n    date: {date_published}\n    author(s): {author}\n    \n    {title}\n    "

/-- Shared reading of `obj['content'].get(key, '')` by the md and txt
formatters: `content` must be present and a dict (else KeyError or
AttributeError → `none`); a present sub-value must be a string (else the
enclosing `'\n'.join` raises → `none`); an absent sub-value defaults to
the empty string. -/
def contentField (obj : PyObj) (key : String) : Option String :=
  match dictGet obj "content" with
  | some (.obj c) =>
      (match dictGet c key with
       | some (.str s) => some s
       | none => some ""
       | some _ => none)
  | _ => none

/-- Embedding of `md_format` (reader.py lines 54-67): normalize the date in
place, fill the template, dedent, and join with the markdown rendering of
the content. -/
def md_format : Formatter := fun obj => do
  let obj ← format_date obj
  let body ← pyFormat mdTemplate obj
  let md ← contentField obj "markdown"
  return (dedent body ++ "\n" ++ md, obj)

/-- Embedding of `txt_format` (reader.py lines 69-83): normalize the date in
place, fill the template, dedent, and join with the plain-text rendering of
the content. -/
def txt_format : Formatter := fun obj => do
  let obj ← format_date obj
  let body ← pyFormat txtTemplate obj
  let tx ← contentField obj "text"
  return (dedent body ++ "\n" ++ tx, obj)

/-- Registry state after the three `@Format` decorations in `reader.py` run
at import time, in source order. -/
def Format.formatter : List (String × Formatter) :=
  Format.register
    (Format.register (Format.register [] "json_format" json_format) "md_format" md_format)
    "txt_format" txt_format

/-- Environment of one invocation: the text on standard input and the
readable files with their contents. -/
structure World where
  stdin : String
  files : List (String × String)

/-- Possible outcomes of `load`: a parsed result, process termination with
diagnostic lines and an exit code, or an uncaught exception. -/
inductive LoadResult where
  | ok (v : Val)
  | fail (errLines : List String) (code : Nat)
  | exn (msg : String)

/-- Shared body of `load` (reader.py lines 87-94): parse JSON text read from
a source, with the `except json.JSONDecodeError` handler printing a
diagnostic that names the loaded source (the f-string renders an absent
filename as `None`) and exiting with code 1. -/
def loadFrom (content : String) (srcName : String) : LoadResult :=
  match loads content with
  | some v => .ok v
  | none => .fail ["failed to load JSON from file: " ++ srcName] 1

/-- Embedding of `load` (reader.py lines 85-94): a filename of `-` or an
absent filename reads standard input; otherwise the named file is opened
and read in full; a missing file raises `FileNotFoundError` outside the
handled exception. -/
def load (filename : Option String) (w : World) : LoadResult :=
  match filename with
  | none => loadFrom w.stdin "None"
  | some f =>
      if f = "-" then loadFrom w.stdin "-"
      else
        match dictGet w.files f with
        | some content => loadFrom content f
        | none => .exn ("FileNotFoundError: " ++ f)

/-- Converter configuration `text` built by `main` (reader.py lines
102-107): emphasis, images and links ignored. -/
def textConv (body_width : Option Nat) : HTML2Text :=
  { body_width := body_width, ignore_emphasis := true, ignore_images := true,
    ignore_links := true, convert_charrefs := true }

/-- Converter configuration `markdown` built by `main` (reader.py lines
108-110): default conversion. -/
def markdownConv (body_width : Option Nat) : HTML2Text :=
  { body_width := body_width, convert_charrefs := true }

/-- Embedding of `main` (reader.py lines 96-116), named `mainTransform`
here because Lean reserves the name `main`: replaces the `content` HTML
string with the bundle `{html, markdown, text}`; `none` models the KeyError
on a missing `content` key or the converter failing on a non-string
value. -/
def mainTransform (result : PyObj) (body_width : Option Nat) : Option PyObj :=
  match dictGet result "content" with
  | some (.str html) =>
      some (dictSet result "content" (.obj
        [("html", .str html),
         ("markdown", .str (unescape ((markdownConv body_width).handle html))),
         ("text", .str (unescape ((textConv body_width).handle html)))]))
  | _ => none

/-- Captured result of `muterun_js` in `postlight_parser`: the subprocess
exit code and its decoded stdout and stderr text. -/
structure SubprocResponse where
  exitcode : Int
  stdout : String
  stderr : String

/-- Final control effect of one `postlight_parser` call. -/
inductive PPOutcome where
  | exited (code : Int)
  | returned (v : Val)
  | raised

/-- Observable behavior of one `postlight_parser` call: the lines printed to
the diagnostic stream (stderr), the lines printed to standard output, and
the outcome. -/
structure ProcResult where
  errLines : List String
  outLines : List String
  outcome : PPOutcome

/-- Model of Python `s.find(c)`: index of the first occurrence, or -1. -/
def strFind (s : String) (c : Char) : Int :=
  match s.data.findIdx? (· = c) with
  | some i => (i : Int)
  | none => -1

/-- Model of the Python slice `s[i:]` for a possibly negative index. -/
def pySliceFrom (s : String) (i : Int) : String :=
  match i with
  | .ofNat n => String.mk (s.data.drop n)
  | .negSucc n => String.mk (s.data.drop (s.data.length - (n + 1)))

/-- Handling of the parsed stdout payload on zero exit (postlight_parser.py
lines 39-45): a dict payload with an `error` key prints the URL line and the
`messages` field to stderr and exits 1 (when `messages` is missing, the URL
line is printed and the lookup raises KeyError); a dict without `error` is
returned; a decode failure or non-dict payload raises. -/
def handlePayload (url : String) (payload : Option Val) : ProcResult :=
  match payload with
  | none => ⟨[], [], .raised⟩
  | some (.obj fs) =>
      if (dictGet fs "error").isSome then
        match dictGet fs "messages" with
        | some m =>
            ⟨["[ERROR] URL: " ++ url, "[ERROR] " ++ String.mk (strOfVal m)], [], .exited 1⟩
        | none => ⟨["[ERROR] URL: " ++ url], [], .raised⟩
      else ⟨[], [], .returned (.obj fs)⟩
  | some _ => ⟨[], [], .raised⟩

/-- Embedding of `postlight_parser` (postlight_parser.py lines 24-45),
parameterized by the captured subprocess response: on non-zero exit, print
the URL line and the captured stderr to the diagnostic stream and exit with
the same code; on zero exit, slice the stdout from the first `\x7b` brace
and parse it as JSON, then dispatch on the payload. -/
def postlightParserRun (url : String) (resp : SubprocResponse) : ProcResult :=
  if resp.exitcode ≠ 0 then
    ⟨["[ERROR] URL: " ++ url, "[ERROR] " ++ resp.stderr], [], .exited resp.exitcode⟩
  else
    handlePayload url (loads (pySliceFrom resp.stdout (strFind resp.stdout '\x7b')))

/-- Character-data content of a token list. -/
def toksData (toks : List HTok) : Str :=
  toks.filterMap (fun t => match t with | .ch c => some c | _ => none)

/-- Character data of a tokenized HTML input: the characters outside tags,
with character references resolved when `cr` is set. -/
def dataChars (cr : Bool) (l : Str) : Str := toksData (tokenize cr l)

/-- Markdown marker fragments named by the plain-text-purity property:
emphasis (`**`, `_`), a bracket (which also heads every image reference and
hyperlink), and the link tail `](`. -/
def mdMarkers : List Str := [['*', '*'], ['_'], ['['], ['!', '['], [']', '(']]

/-- Text field of a transformed result's content bundle. -/
def textField (o : PyObj) : Option String :=
  match dictGet o "content" with
  | some (.obj c) =>
      (match dictGet c "text" with
       | some (.str s) => some s
       | _ => none)
  | _ => none

/-- Loaded result of the end-to-end scenario in the specification. -/
def c4result : PyObj :=
  [("title", .str "T"), ("author", .str "A"), ("url", .str "http://x"),
   ("date_published", .str "2020-01-02T03:04:05.000000Z"),
   ("content", .str "<p>Hi <b>there</b></p>")]

/-- A sample result object exercising every serializable value shape,
including a non-ASCII character and an escaped control character. -/
def c7obj : PyObj :=
  [("a", .str "héllo"), ("b", .num (-3)),
   ("c", .arr [.bool true, .null]),
   ("d", .obj [("x", .str "y\nz")])]

theorem dictGet_dictSet_self {α : Type} (d : List (String × α)) (k : String) (v : α) :
    dictGet (dictSet d k v) k = some v := by
  induction d with
  | nil => simp [dictSet, dictGet]
  | cons p d ih =>
    obtain ⟨k1, v1⟩ := p
    by_cases h : k1 = k
    · simp [dictSet, dictGet, h]
    · simp [dictSet, dictGet, h, ih]

theorem dictKeys_dictSet {α : Type} (d : List (String × α)) (k : String) (v : α) :
    dictKeys (dictSet d k v) = if k ∈ dictKeys d then dictKeys d else dictKeys d ++ [k] := by
  induction d with
  | nil => simp [dictSet, dictKeys]
  | cons p d ih =>
    obtain ⟨k1, v1⟩ := p
    by_cases h : k1 = k
    · simp [dictSet, dictKeys, h]
    · simp only [dictSet, dictKeys, List.map_cons, if_neg h]
      by_cases hm : k ∈ dictKeys d
      · simp [dictKeys] at hm ih ⊢
        simp [hm, ih, h, Ne.symm h]
      · simp [dictKeys] at hm ih ⊢
        simp [hm, ih, h, Ne.symm h]

theorem dictKeys_nodup_dictSet {α : Type} (d : List (String × α)) (k : String) (v : α)
    (h : (dictKeys d).Nodup) : (dictKeys (dictSet d k v)).Nodup := by
  rw [dictKeys_dictSet]
  by_cases hm : k ∈ dictKeys d
  · simpa [hm] using h
  · simp only [if_neg hm]
    simpa [List.nodup_append, hm] using h

/-- C9: the `Format` registry maps the derived name — the decorated
function's name with its final underscore-delimited suffix stripped, so
`json_format` registers as `json` — to that function; registering a second
function with the same derived name silently replaces the earlier entry;
registration keeps the key list duplicate-free. -/
theorem claim9_registry {α : Type} (reg : List (String × α)) (n1 n2 : String)
    (f g : α) (k : String) (h1 : rsplitKey n1 = some k) (h2 : rsplitKey n2 = some k) :
    rsplitKey "json_format" = some "json" ∧
    dictGet (Format.register reg n1 f) k = some f ∧
    dictGet (Format.register (Format.register reg n1 f) n2 g) k = some g ∧
    ((dictKeys reg).Nodup → (dictKeys (Format.register reg n1 f)).Nodup) := by
  refine ⟨by decide, ?_, ?_, ?_⟩
  · simp [Format.register, h1, dictGet_dictSet_self]
  · simp [Format.register, h1, h2, dictGet_dictSet_self]
  · intro h
    simp only [Format.register, h1]
    exact dictKeys_nodup_dictSet _ _ _ h

/-- Witness for C9: two registrations under the derived name `json` leave
the second function in place and a duplicate-free registry. -/
theorem claim9_registry_witness :
    dictGet (Format.register (Format.register ([] : List (String × Nat)) "json_format" 0)
      "json_format" 1) "json" = some 1 ∧
    (dictKeys (Format.register ([] : List (String × Nat)) "json_format" 0)).Nodup := by
  have h := claim9_registry ([] : List (String × Nat)) "json_format" "json_format" 0 1 "json"
    (by decide) (by decide)
  exact ⟨h.2.2.1, h.2.2.2 (by decide)⟩

/-- C2: on a non-zero subprocess exit code the adapter prints an error line
identifying the failed URL and the captured stderr text to the diagnostic
stream, prints nothing to standard output, and terminates with that same
exit code. -/
theorem claim2_nonzero_exit (url : String) (resp : SubprocResponse)
    (h : resp.exitcode ≠ 0) :
    (postlightParserRun url resp).errLines =
      ["[ERROR] URL: " ++ url, "[ERROR] " ++ resp.stderr] ∧
    (postlightParserRun url resp).outLines = [] ∧
    (postlightParserRun url resp).outcome = .exited resp.exitcode := by
  simp [postlightParserRun, h]

/-- Witness for C2: a stub tool exiting with code 3 and stderr `boom`. -/
theorem claim2_nonzero_exit_witness :
    (postlightParserRun "http://u" ⟨3, "", "boom"⟩).errLines =
      ["[ERROR] URL: http://u", "[ERROR] boom"] ∧
    (postlightParserRun "http://u" ⟨3, "", "boom"⟩).outLines = [] ∧
    (postlightParserRun "http://u" ⟨3, "", "boom"⟩).outcome = .exited 3 := by
  have h := claim2_nonzero_exit "http://u" ⟨3, "", "boom"⟩ (by decide)
  exact ⟨by rw [h.1]; rfl, h.2.1, h.2.2⟩

/-- C3: on zero exit, a parsed payload carrying an `error` key makes the
adapter print the failed URL and the payload's `messages` field to the
diagnostic stream and exit with code 1; a payload without `error` is
returned unchanged. -/
theorem claim3_error_payload (url : String) (resp : SubprocResponse) (fs : PyObj)
    (h0 : resp.exitcode = 0)
    (hp : loads (pySliceFrom resp.stdout (strFind resp.stdout '\x7b')) = some (.obj fs)) :
    (∀ e m, dictGet fs "error" = some e → dictGet fs "messages" = some m →
      postlightParserRun url resp =
        ⟨["[ERROR] URL: " ++ url, "[ERROR] " ++ String.mk (strOfVal m)], [], .exited 1⟩) ∧
    (dictGet fs "error" = none →
      postlightParserRun url resp = ⟨[], [], .returned (.obj fs)⟩) := by
  constructor
  · intro e m he hm
    simp [postlightParserRun, h0, hp, handlePayload, he, hm]
  · intro he
    simp [postlightParserRun, h0, hp, handlePayload, he]

/-- Witness for C3: an error payload exits 1 with the messages text, and an
error-free payload is returned unchanged. -/
theorem claim3_error_payload_witness :
    postlightParserRun "http://u" ⟨0, "\x7b\"error\": true, \"messages\": \"bad\"\x7d", ""⟩ =
      ⟨["[ERROR] URL: http://u", "[ERROR] bad"], [], .exited 1⟩ ∧
    postlightParserRun "http://u" ⟨0, "\x7b\"title\": \"ok\"\x7d", ""⟩ =
      ⟨[], [], .returned (.obj [("title", .str "ok")])⟩ := by
  constructor
  · have h := claim3_error_payload "http://u"
      ⟨0, "\x7b\"error\": true, \x22messages\": \"bad\"\x7d", ""⟩
      [("error", .bool true), ("messages", .str "bad")] rfl rfl
    have h2 := h.1 (.bool true) (.str "bad") rfl rfl
    rw [h2]; rfl
  · have h := claim3_error_payload "http://u" ⟨0, "\x7b\"title\": \"ok\"\x7d", ""⟩
      [("title", .str "ok")] rfl rfl
    exact h.2 rfl

theorem findIdx_append_first {p : Char → Bool} : ∀ (l1 : Str) (b : Char) (l2 : Str),
    (∀ c ∈ l1, p c = false) → p b = true →
    (l1 ++ b :: l2).findIdx? p = some l1.length := by
  intro l1
  induction l1 with
  | nil => intro b l2 _ hb; simp [List.findIdx?_cons, hb]
  | cons x xs ih =>
    intro b l2 h hb
    have hx : p x = false := h x (by simp)
    simp [List.findIdx?_cons, hx, ih b l2 (fun c hc => h c (by simp [hc])) hb]

/-- C6: on zero exit the adapter parses exactly the stdout substring that
starts at the first `\x7b` character, so any banner or log text before it
is skipped. -/
theorem claim6_brace_skip (url : String) (resp : SubprocResponse) (pre post : String)
    (h0 : resp.exitcode = 0)
    (hsplit : resp.stdout = pre ++ "\x7b" ++ post)
    (hpre : '\x7b' ∉ pre.data) :
    pySliceFrom resp.stdout (strFind resp.stdout '\x7b') = "\x7b" ++ post ∧
    postlightParserRun url resp = handlePayload url (loads ("\x7b" ++ post)) := by
  have hdata : resp.stdout.data = pre.data ++ '\x7b' :: post.data := by
    rw [hsplit, String.data_append, String.data_append, List.append_assoc]
    rfl
  have hfind : strFind resp.stdout '\x7b' = (pre.data.length : Int) := by
    unfold strFind
    rw [hdata, findIdx_append_first pre.data _ post.data ?_ (by simp)]
    intro c hc
    simp only [decide_eq_false_iff_not]
    intro h
    exact hpre (h ▸ hc)
  have hslice : pySliceFrom resp.stdout (strFind resp.stdout '\x7b') = "\x7b" ++ post := by
    rw [hfind]
    show String.mk (resp.stdout.data.drop pre.data.length) = _
    rw [hdata, List.drop_left]
    apply String.ext
    rw [String.data_append]
    rfl
  refine ⟨hslice, ?_⟩
  rw [postlightParserRun, if_neg (by simp [h0]), hslice]

/-- Witness for C6 at a stdout with a banner line before the JSON. -/
theorem claim6_brace_skip_witness :
    pySliceFrom "banner \x7b\"a\": 1\x7d"
        (strFind "banner \x7b\"a\": 1\x7d" '\x7b') = "\x7b\"a\": 1\x7d" ∧
    postlightParserRun "http://u" ⟨0, "banner \x7b\"a\": 1\x7d", ""⟩ =
      handlePayload "http://u" (loads "\x7b\"a\": 1\x7d") := by
  have h := claim6_brace_skip "http://u" ⟨0, "banner \x7b\"a\": 1\x7d", ""⟩
    "banner " "\"a\": 1\x7d" rfl rfl (by decide)
  exact ⟨by rw [h.1]; rfl, by rw [h.2]; rfl⟩

/-- C5: the loader reads and parses standard input when the source is `-`
or absent and the named file otherwise; on a JSON parse failure it prints a
diagnostic naming the failed source to the error stream and terminates with
exit code 1, returning no partial result. -/
theorem claim5_load (w : World) (f : String) (content src name : String) :
    load none w = loadFrom w.stdin "None" ∧
    load (some "-") w = loadFrom w.stdin "-" ∧
    (f ≠ "-" → dictGet w.files f = some content → load (some f) w = loadFrom content f) ∧
    (∀ v, loads src = some v → loadFrom src name = .ok v) ∧
    (loads src = none →
      loadFrom src name = .fail ["failed to load JSON from file: " ++ name] 1) := by
  refine ⟨rfl, by simp [load], ?_, ?_, ?_⟩
  · intro hne hfile
    simp [load, hne, hfile]
  · intro v hv
    simp [loadFrom, hv]
  · intro hn
    simp [loadFrom, hn]

/-- Witness for C5: loading a file holding invalid JSON fails with the
diagnostic naming the file and exit code 1, and stdin loading parses. -/
theorem claim5_load_witness :
    load (some "bad.json") ⟨"", [("bad.json", "not json")]⟩ =
      .fail ["failed to load JSON from file: bad.json"] 1 ∧
    load none ⟨"\x7b\"a\": 1\x7d", []⟩ = .ok (.obj [("a", .num 1)]) := by
  constructor
  · have h := claim5_load ⟨"", [("bad.json", "not json")]⟩ "bad.json" "not json" "not json"
      "bad.json"
    rw [h.2.2.1 (by decide) rfl, h.2.2.2.2 rfl]; rfl
  · have h := claim5_load ⟨"\x7b\"a\": 1\x7d", []⟩ "-" "" "\x7b\"a\": 1\x7d" "None"
    rw [h.1]
    exact h.2.2.2.1 (.obj [("a", .num 1)]) rfl

/-- C1 is refuted as stated: the derived `markdown` and `text` fields are
not in general free of raw HTML entity escape sequences — on the
triply-escaped content `&amp;amp;amp;` both still contain `&amp;`. -/
theorem claim1_counterexample :
    mainTransform [("content", .str "&amp;amp;amp;")] none =
      some [("content", .obj [("html", .str "&amp;amp;amp;"),
        ("markdown", .str "&amp;\n"), ("text", .str "&amp;\n")])] ∧
    "&amp;".data <:+: "&amp;\n".data := by
  exact ⟨rfl, by decide⟩

/-- C1 (amended): for every result whose `content` is a non-empty HTML
string, the transformer replaces `content` with the record
`{html, markdown, text}` in which `html` is exactly the original string and
`markdown`/`text` are the converter outputs passed through one further
`html.unescape`; an input containing `&amp;` therefore yields `&` in both
derived fields, but (per the counterexample) inputs escaped three or more
times can leave raw escape sequences there. -/
theorem claim1_amended (result : PyObj) (body_width : Option Nat) (html : String)
    (hc : dictGet result "content" = some (.str html)) (_hne : html ≠ "") :
    mainTransform result body_width = some (dictSet result "content" (.obj
      [("html", .str html),
       ("markdown", .str (unescape ((markdownConv body_width).handle html))),
       ("text", .str (unescape ((textConv body_width).handle html)))])) ∧
    dictGet [("html", Val.str html),
       ("markdown", Val.str (unescape ((markdownConv body_width).handle html))),
       ("text", Val.str (unescape ((textConv body_width).handle html)))] "html" =
      some (.str html) ∧
    mainTransform [("content", .str "a &amp; b")] none =
      some [("content", .obj [("html", .str "a &amp; b"),
        ("markdown", .str "a & b\n"), ("text", .str "a & b\n")])] := by
  refine ⟨?_, rfl, rfl⟩
  simp [mainTransform, hc]

/-- Witness for C1 (amended) at the end-to-end scenario input. -/
theorem claim1_amended_witness :
    mainTransform c4result none = some
      [("title", .str "T"), ("author", .str "A"), ("url", .str "http://x"),
       ("date_published", .str "2020-01-02T03:04:05.000000Z"),
       ("content", .obj [("html", .str "<p>Hi <b>there</b></p>"),
         ("markdown", .str "Hi **there**\n"), ("text", .str "Hi there\n")])] := by
  have h := claim1_amended c4result none "<p>Hi <b>there</b></p>" rfl (by decide)
  rw [h.1]; rfl

/-- C4: the end-to-end scenario — on the loaded result of the
specification, passed through the transformer, the registry's `md`
formatter output contains the heading line `# [T](http://x)` and the body
line `Hi **there**`, and the registry's `txt` formatter output contains
`Hi there` with no markup (no asterisk, no bracket anywhere in it). -/
theorem claim4_end_to_end :
    dictGet Format.formatter "md" = some md_format ∧
    dictGet Format.formatter "txt" = some txt_format ∧
    ((mainTransform c4result none).bind md_format).map Prod.fst = some
      "\ndate: 2020-01-02 03:04:05  \nauthor(s): A  \n\n# [T](http://x)\n\nHi **there**\n" ∧
    "# [T](http://x)".data ∈ splitLines
      "\ndate: 2020-01-02 03:04:05  \nauthor(s): A  \n\n# [T](http://x)\n\nHi **there**\n".data ∧
    "Hi **there**".data ∈ splitLines
      "\ndate: 2020-01-02 03:04:05  \nauthor(s): A  \n\n# [T](http://x)\n\nHi **there**\n".data ∧
    ((mainTransform c4result none).bind txt_format).map Prod.fst = some
      "\nurl: http://x\ndate: 2020-01-02 03:04:05\nauthor(s): A\n\nT\n\nHi there\n" ∧
    "Hi there".data <:+:
      "\nurl: http://x\ndate: 2020-01-02 03:04:05\nauthor(s): A\n\nT\n\nHi there\n".data ∧
    '*' ∉ "\nurl: http://x\ndate: 2020-01-02 03:04:05\nauthor(s): A\n\nT\n\nHi there\n".data ∧
    '[' ∉ "\nurl: http://x\ndate: 2020-01-02 03:04:05\nauthor(s): A\n\nT\n\nHi there\n".data := by
  exact ⟨rfl, rfl, rfl, by decide, by decide, rfl, by decide, by decide, by decide⟩

theorem serFields_pydate_none : ∀ (d : PyObj) (k : String) (dt : PyDateTime),
    dictGet d k = some (.pydate dt) → serFields d = none := by
  intro d
  induction d with
  | nil => intro k dt h; simp [dictGet] at h
  | cons p rest ih =>
    intro k dt h
    obtain ⟨k1, v1⟩ := p
    by_cases he : k1 = k
    · rw [dictGet, if_pos he] at h
      cases h
      simp [serFields, serVal]
    · rw [dictGet, if_neg he] at h
      have hr := ih k dt h
      cases hsv : serVal v1 <;> simp [serFields, hsv, hr]

/-- C10: the md and txt formatters mutate their argument — when
`date_published` holds a (parseable) string, `format_date` replaces it in
place with the parsed datetime object, after which applying a second
formatter to the same object fails instead of returning a string: `json`
serialization of the datetime raises, and a second `strptime` on the
non-string raises; formatting is not repeatable on the same object. -/
theorem claim10_formatters_mutate (obj : PyObj) (s : String) (dt : PyDateTime)
    (out : String) (obj' : PyObj)
    (hs : dictGet obj "date_published" = some (.str s))
    (hdt : parseDatePub s = some dt)
    (hmd : md_format obj = some (out, obj')) :
    dictGet obj' "date_published" = some (.pydate dt) ∧
    json_format obj' = none ∧
    md_format obj' = none ∧
    txt_format obj' = none := by
  have hobj' : obj' = dictSet obj "date_published" (.pydate dt) := by
    simp only [md_format, format_date, hs, hdt, Option.map_some', Option.some_bind,
      Option.bind_eq_bind] at hmd
    cases hp : pyFormat mdTemplate (dictSet obj "date_published" (.pydate dt)) with
    | none => rw [hp] at hmd; simp at hmd
    | some b =>
      rw [hp] at hmd
      cases hcf : contentField (dictSet obj "date_published" (.pydate dt)) "markdown" with
      | none => rw [hcf] at hmd; simp at hmd
      | some md =>
        rw [hcf] at hmd
        simp at hmd
        exact hmd.2.symm
  have hget : dictGet obj' "date_published" = some (.pydate dt) := by
    rw [hobj']; exact dictGet_dictSet_self obj "date_published" (.pydate dt)
  refine ⟨hget, ?_, ?_, ?_⟩
  · have hser := serFields_pydate_none obj' "date_published" dt hget
    simp [json_format, dumps, serVal, hser]
  · simp [md_format, format_date, hget]
  · simp [txt_format, format_date, hget]

/-- Witness for C10: after one `md_format` call the date value is a
datetime object and every further formatter application fails. -/
theorem claim10_formatters_mutate_witness :
    dictGet [("title", Val.str "T"), ("author", Val.str "A"), ("url", Val.str "http://x"),
        ("date_published", Val.pydate ⟨2020, 1, 2, 3, 4, 5, 0⟩),
        ("content", Val.obj [("markdown", Val.str "M"), ("text", Val.str "X")])]
      "date_published" = some (.pydate ⟨2020, 1, 2, 3, 4, 5, 0⟩) ∧
    json_format [("title", Val.str "T"), ("author", Val.str "A"), ("url", Val.str "http://x"),
        ("date_published", Val.pydate ⟨2020, 1, 2, 3, 4, 5, 0⟩),
        ("content", Val.obj [("markdown", Val.str "M"), ("text", Val.str "X")])] = none ∧
    md_format [("title", Val.str "T"), ("author", Val.str "A"), ("url", Val.str "http://x"),
        ("date_published", Val.pydate ⟨2020, 1, 2, 3, 4, 5, 0⟩),
        ("content", Val.obj [("markdown", Val.str "M"), ("text", Val.str "X")])] = none ∧
    txt_format [("title", Val.str "T"), ("author", Val.str "A"), ("url", Val.str "http://x"),
        ("date_published", Val.pydate ⟨2020, 1, 2, 3, 4, 5, 0⟩),
        ("content", Val.obj [("markdown", Val.str "M"), ("text", Val.str "X")])] = none := by
  exact claim10_formatters_mutate
    [("title", Val.str "T"), ("author", Val.str "A"), ("url", Val.str "http://x"),
     ("date_published", Val.str "2020-01-02T03:04:05.000000Z"),
     ("content", Val.obj [("markdown", Val.str "M"), ("text", Val.str "X")])]
    "2020-01-02T03:04:05.000000Z" ⟨2020, 1, 2, 3, 4, 5, 0⟩
    "\ndate: 2020-01-02 03:04:05  \nauthor(s): A  \n\n# [T](http://x)\n\nM"
    [("title", Val.str "T"), ("author", Val.str "A"), ("url", Val.str "http://x"),
     ("date_published", Val.pydate ⟨2020, 1, 2, 3, 4, 5, 0⟩),
     ("content", Val.obj [("markdown", Val.str "M"), ("text", Val.str "X")])]
    rfl rfl rfl

theorem infix_append_cases {α : Type} {p a b : List α} (h : p <:+: a ++ b) :
    p <:+: a ∨ p <:+: b ∨
      ∃ p1 p2, p = p1 ++ p2 ∧ p1 ≠ [] ∧ p2 ≠ [] ∧ p1 <:+ a ∧ p2 <+: b := by
  obtain ⟨s, t, hst⟩ := h
  have hlen : s.length + p.length + t.length = a.length + b.length := by
    have := congrArg List.length hst
    simp at this
    omega
  by_cases h1 : s.length + p.length ≤ a.length
  · left
    have hpre : (s ++ p) ++ t = a ++ b := by simpa [List.append_assoc] using hst
    have hpre1 : s ++ p <+: a ++ b := ⟨t, hpre⟩
    have hpre2 : s ++ p <+: a :=
      List.prefix_of_prefix_length_le hpre1 (List.prefix_append a b) (by simpa using h1)
    obtain ⟨t2, ht2⟩ := hpre2
    exact ⟨s, t2, by simpa [List.append_assoc] using ht2⟩
  · by_cases h2 : a.length ≤ s.length
    · right; left
      have hsuf : s ++ (p ++ t) = a ++ b := by simpa [List.append_assoc] using hst
      have hsuf1 : p ++ t <:+ a ++ b := ⟨s, hsuf⟩
      have hsuf2 : p ++ t <:+ b :=
        List.suffix_of_suffix_length_le hsuf1 (List.suffix_append a b) (by simp; omega)
      obtain ⟨s2, hs2⟩ := hsuf2
      exact ⟨s2, t, by simpa [List.append_assoc] using hs2⟩
    · right; right
      have hklt : a.length - s.length < p.length := by omega
      have hkpos : 0 < a.length - s.length := by omega
      refine ⟨p.take (a.length - s.length), p.drop (a.length - s.length),
        (List.take_append_drop _ p).symm, ?_, ?_, ?_, ?_⟩
      · have : (p.take (a.length - s.length)).length = a.length - s.length := by
          simp [List.length_take]; omega
        intro hnil
        rw [hnil] at this
        simp at this
        omega
      · have : (p.drop (a.length - s.length)).length = p.length - (a.length - s.length) := by
          simp
        intro hnil
        rw [hnil] at this
        simp at this
        omega
      · have heq : s ++ p.take (a.length - s.length) = a := by
          have hpre1 : (s ++ p.take (a.length - s.length)) <+: a ++ b := by
            refine ⟨p.drop (a.length - s.length) ++ t, ?_⟩
            rw [← hst]
            simp only [List.append_assoc, List.append_cancel_left_eq]
            rw [← List.append_assoc, List.take_append_drop]
          have hpre2 : (s ++ p.take (a.length - s.length)) <+: a :=
            List.prefix_of_prefix_length_le hpre1 (List.prefix_append a b)
              (by simp [List.length_take]; omega)
          exact hpre2.eq_of_length (by simp [List.length_take]; omega)
        exact ⟨s, heq⟩
      · have heq : s ++ p.take (a.length - s.length) = a := by
          have hpre1 : (s ++ p.take (a.length - s.length)) <+: a ++ b := by
            refine ⟨p.drop (a.length - s.length) ++ t, ?_⟩
            rw [← hst]
            simp only [List.append_assoc, List.append_cancel_left_eq]
            rw [← List.append_assoc, List.take_append_drop]
          have hpre2 : (s ++ p.take (a.length - s.length)) <+: a :=
            List.prefix_of_prefix_length_le hpre1 (List.prefix_append a b)
              (by simp [List.length_take]; omega)
          exact hpre2.eq_of_length (by simp [List.length_take]; omega)
        refine ⟨t, ?_⟩
        have : (s ++ p.take (a.length - s.length)) ++ (p.drop (a.length - s.length) ++ t) =
            a ++ b := by
          rw [← hst]
          simp only [List.append_assoc, List.append_cancel_left_eq]
          rw [← List.append_assoc, List.take_append_drop]
        rw [heq] at this
        exact List.append_cancel_left this

theorem not_inf_of_disjoint_inf {p q : Str} (hne : p ≠ []) (hq : p <:+: q)
    (hdisj : ∀ c ∈ q, c ∉ p) : False := by
  obtain ⟨c, hc⟩ := List.exists_mem_of_ne_nil p hne
  exact hdisj c (hq.sublist.subset hc) hc

theorem head_mem_of_prefix_cons {p2 : Str} {s0 : Char} {rest : Str} (hne : p2 ≠ [])
    (hpre : p2 <+: s0 :: rest) : s0 ∈ p2 := by
  match p2 with
  | [] => exact absurd rfl hne
  | c :: p2x =>
    obtain ⟨t, ht⟩ := hpre
    have hc : c = s0 := by
      have := congrArg (fun l => l.head?) ht
      simpa using this
    simp [hc]

theorem suffix_mem_sep {q1 sep : Str} (hne : q1 ≠ []) (hs : q1 <:+ sep) :
    ∃ c, c ∈ q1 ∧ c ∈ sep := by
  obtain ⟨c, hc⟩ := List.exists_mem_of_ne_nil q1 hne
  exact ⟨c, hc, hs.sublist.subset hc⟩

theorem not_infix_joinSep (p sep : Str) (hne : p ≠ [])
    (hsep : sep ≠ []) (hdisj : ∀ c ∈ sep, c ∉ p) :
    ∀ ws : List Str, (∀ w ∈ ws, ¬ p <:+: w) → ¬ p <:+: joinSep sep ws := by
  cases sep with
  | nil => exact absurd rfl hsep
  | cons s0 sepx =>
    intro ws
    induction ws with
    | nil =>
      intro _ h
      rw [joinSep] at h
      exact hne (by simpa [List.infix_nil] using h)
    | cons w ws ih =>
      intro hw
      cases ws with
      | nil => exact fun h => hw w (by simp) (by simpa [joinSep] using h)
      | cons w2 rest =>
        intro h
        have hjs : joinSep (s0 :: sepx) (w :: w2 :: rest) =
            w ++ ((s0 :: sepx) ++ joinSep (s0 :: sepx) (w2 :: rest)) := by
          show w ++ (s0 :: sepx) ++ joinSep (s0 :: sepx) (w2 :: rest) = _
          rw [List.append_assoc]
        rw [hjs] at h
        rcases infix_append_cases h with hin | hin | ⟨p1, p2, hp, hp1, hp2, hs1, hs2⟩
        · exact hw w (by simp) hin
        · rcases infix_append_cases hin with hin2 | hin2 | ⟨q1, q2, hq, hq1, hq2, ht1, ht2⟩
          · exact not_inf_of_disjoint_inf hne hin2 hdisj
          · exact ih (fun x hx => hw x (by simp [hx])) hin2
          · obtain ⟨c, hcq, hcs⟩ := suffix_mem_sep hq1 ht1
            exact hdisj c hcs (by simp [hq, hcq])
        · have hs0 : s0 ∈ p2 := head_mem_of_prefix_cons hp2 (by simpa using hs2)
          exact hdisj s0 (by simp) (by simp [hp, hs0])

theorem mem_joinSep {c : Char} (sep : Str) :
    ∀ ws : List Str, c ∈ joinSep sep ws → c ∈ sep ∨ ∃ w ∈ ws, c ∈ w := by
  intro ws
  induction ws with
  | nil => intro h; rw [joinSep] at h; simp at h
  | cons w ws ih =>
    cases ws with
    | nil =>
      intro h
      rw [joinSep] at h
      exact Or.inr ⟨w, by simp, h⟩
    | cons w2 rest =>
      intro h
      have hjs : joinSep sep (w :: w2 :: rest) =
          w ++ (sep ++ joinSep sep (w2 :: rest)) := by
        show w ++ sep ++ joinSep sep (w2 :: rest) = _
        rw [List.append_assoc]
      rw [hjs] at h
      rcases List.mem_append.mp h with h1 | h1
      · exact Or.inr ⟨w, by simp, h1⟩
      · rcases List.mem_append.mp h1 with h2 | h2
        · exact Or.inl h2
        · rcases ih h2 with h3 | ⟨x, hx, hcx⟩
          · exact Or.inl h3
          · exact Or.inr ⟨x, by simp [hx], hcx⟩

theorem splitWordsAux_isInf : ∀ (f : Nat) (l : Str), ∀ w ∈ splitWordsAux f l, w <:+: l := by
  intro f l
  induction f, l using splitWordsAux.induct with
  | case1 l => intro w hw; simp [splitWordsAux] at hw
  | case2 f => intro w hw; simp [splitWordsAux] at hw
  | case3 f c r hsp ih =>
    intro w hw
    rw [splitWordsAux, if_pos hsp] at hw
    exact (ih w hw).trans (List.suffix_cons c r).isInfix
  | case4 f c r hsp ih =>
    intro w hw
    rw [splitWordsAux, if_neg hsp] at hw
    rcases List.mem_cons.mp hw with h1 | h1
    · subst h1
      exact ⟨[], r.dropWhile (fun x => !isSpaceC x), by
        simp [List.takeWhile_append_dropWhile]⟩
    · have := ih w h1
      have hsuf : r.dropWhile (fun x => !isSpaceC x) <:+ c :: r :=
        (List.dropWhile_suffix _).trans (List.suffix_cons c r)
      exact this.trans hsuf.isInfix

theorem chunkWordsAux_mem (w : Nat) : ∀ (ws : List Str) (cur : List Str) (len : Nat),
    ∀ ch ∈ chunkWordsAux w ws cur len, ∀ x ∈ ch, x ∈ ws ∨ x ∈ cur := by
  intro ws
  induction ws with
  | nil =>
    intro cur len ch hch x hx
    rw [chunkWordsAux] at hch
    by_cases hc : cur.isEmpty
    · simp [hc] at hch
    · simp [hc] at hch
      subst hch
      exact Or.inr hx
  | cons y ys ih =>
    intro cur len ch hch x hx
    rw [chunkWordsAux] at hch
    by_cases hc : cur.isEmpty
    · simp only [hc, if_pos] at hch
      rcases ih [y] y.length ch hch x hx with h1 | h1
      · exact Or.inl (by simp [h1])
      · simp at h1
        exact Or.inl (by simp [h1])
    · simp only [hc, if_neg, Bool.false_eq_true] at hch
      by_cases hlen : len + 1 + y.length ≤ w
      · rw [if_pos hlen] at hch
        rcases ih (cur ++ [y]) (len + 1 + y.length) ch hch x hx with h1 | h1
        · exact Or.inl (by simp [h1])
        · rcases List.mem_append.mp h1 with h2 | h2
          · exact Or.inr h2
          · simp at h2
            exact Or.inl (by simp [h2])
      · rw [if_neg hlen] at hch
        rcases List.mem_cons.mp hch with h1 | h1
        · subst h1
          exact Or.inr hx
        · rcases ih [y] y.length ch h1 x hx with h2 | h2
          · exact Or.inl (by simp [h2])
          · simp at h2
            exact Or.inl (by simp [h2])

theorem wrapPara_not_inf (p : Str) (hne : p ≠ []) (hnl : '\n' ∉ p) (hsp : ' ' ∉ p)
    (w : Nat) (para : Str) (hpara : ¬ p <:+: para) : ¬ p <:+: wrapPara w para := by
  rw [wrapPara]
  apply not_infix_joinSep p ['\n'] hne (by simp) (by simpa using hnl)
  intro line hline
  rcases List.mem_map.mp hline with ⟨ch, hch, rfl⟩
  apply not_infix_joinSep p [' '] hne (by simp) (by simpa using hsp)
  intro x hx
  intro hinf
  have hxw : x ∈ splitWords para ∨ x ∈ ([] : List Str) :=
    chunkWordsAux_mem w (splitWords para) [] 0 ch hch x hx
  rcases hxw with hxw | hxw
  · exact hpara (hinf.trans (splitWordsAux_isInf para.length para x hxw))
  · simp at hxw

theorem wrapPara_mem (w : Nat) (para : Str) (c : Char) (hc : c ∈ wrapPara w para) :
    c ∈ para ∨ c = '\n' ∨ c = ' ' := by
  rw [wrapPara] at hc
  rcases mem_joinSep _ _ hc with h1 | ⟨line, hline, hcl⟩
  · simp at h1
    exact Or.inr (Or.inl h1)
  · rcases List.mem_map.mp hline with ⟨ch, hch, rfl⟩
    rcases mem_joinSep _ _ hcl with h2 | ⟨x, hx, hcx⟩
    · simp at h2
      exact Or.inr (Or.inr h2)
    · rcases chunkWordsAux_mem w (splitWords para) [] 0 ch hch x hx with h3 | h3
      · exact Or.inl ((splitWordsAux_isInf para.length para x h3).sublist.subset hcx)
      · simp at h3

theorem dropWhile_head_false (p : Char → Bool) : ∀ (r : Str) (x : Char) (rest : Str),
    r.dropWhile p = x :: rest → p x = false := by
  intro r
  induction r with
  | nil => intro x rest h; simp [List.dropWhile] at h
  | cons y ys ih =>
    intro x rest h
    rw [List.dropWhile_cons] at h
    by_cases hp : p y
    · rw [if_pos hp] at h
      exact ih x rest h
    · rw [if_neg hp] at h
      cases h
      simpa using hp

theorem parseTagTok_ne_ch (inner : Str) (c : Char) : parseTagTok inner ≠ HTok.ch c := by
  rw [parseTagTok.eq_def]
  split <;> simp

theorem tokenizeAux_data_subset (cr : Bool) : ∀ (f : Nat) (l : Str), '&' ∉ l →
    ∀ c, HTok.ch c ∈ tokenizeAux cr f l → c ∈ l := by
  intro f l
  induction f, l using tokenizeAux.induct cr with
  | case1 l => intro _ c hc; simp [tokenizeAux] at hc
  | case2 f => intro _ c hc; simp [tokenizeAux] at hc
  | case3 f r rest hdrop ih =>
    intro hamp c hc
    rw [tokenizeAux, hdrop] at hc
    rcases List.mem_cons.mp hc with h1 | h1
    · exact absurd h1.symm (parseTagTok_ne_ch _ c)
    · have hsub : rest <:+ '<' :: r := by
        have h2 : '>' :: rest <:+ r := hdrop ▸ List.dropWhile_suffix _
        exact ((List.suffix_cons '>' rest).trans h2).trans (List.suffix_cons '<' r)
      have hamp2 : '&' ∉ rest := fun hx => hamp (hsub.sublist.subset hx)
      exact hsub.sublist.subset (ih hamp2 c h1)
  | case4 f r hfail ih =>
    intro hamp c hc
    rw [tokenizeAux] at hc
    rcases hd : r.dropWhile (fun x => decide (x ≠ '>')) with _ | ⟨x, rest⟩ <;>
      rw [hd] at hc
    · rcases List.mem_cons.mp hc with h1 | h1
      · simp at h1
        simp [h1]
      · have hamp2 : '&' ∉ r := fun hx => hamp (by simp [hx])
        exact List.mem_cons_of_mem _ (ih hamp2 c h1)
    · have hxe : x = '>' := by
        have hpx := dropWhile_head_false _ r x rest hd
        simpa using hpx
      exact (hfail rest (hxe ▸ hd)).elim
  | case5 f r hcr c r2 href ih =>
    intro hamp
    exact absurd (show '&' ∈ '&' :: r by simp) hamp
  | case6 f r hcr href ih =>
    intro hamp
    exact absurd (show '&' ∈ '&' :: r by simp) hamp
  | case7 f r hcr ih =>
    intro hamp
    exact absurd (show '&' ∈ '&' :: r by simp) hamp
  | case8 f c r hlt hamp2 ih =>
    intro hamp d hd
    rw [tokenizeAux] at hd
    rotate_left
    · exact hlt
    · exact hamp2
    rcases List.mem_cons.mp hd with h1 | h1
    · simp at h1
      simp [h1]
    · have hamp3 : '&' ∉ r := fun hx => hamp (by simp [hx])
      exact List.mem_cons_of_mem _ (ih hamp3 d h1)

theorem unescapeAux_id : ∀ (f : Nat) (l : Str), '&' ∉ l → l.length ≤ f →
    unescapeAux f l = l := by
  intro f l
  induction f, l using unescapeAux.induct with
  | case1 l => intro _ _; rfl
  | case2 f => intro _ _; rfl
  | case3 f r c r2 href ih =>
    intro hamp _
    exact absurd (show '&' ∈ '&' :: r from by simp) hamp
  | case4 f r href ih =>
    intro hamp _
    exact absurd (show '&' ∈ '&' :: r from by simp) hamp
  | case5 f c r hne ih =>
    intro hamp hlen
    have h1 : '&' ∉ r := fun hx => hamp (by simp [hx])
    have h2 : r.length ≤ f := by simp at hlen; omega
    rw [unescapeAux, ih h1 h2]
    exact fun hc => hne hc

theorem convStep_ch (o : HTML2Text) (st : ConvState) (c : Char) :
    convStep o st (.ch c) = { st with cur := st.cur ++ [c] } := rfl

theorem convStep_tag_text (o : HTML2Text) (he : o.ignore_emphasis = true)
    (hl : o.ignore_links = true) (hi : o.ignore_images = true)
    (st : ConvState) (closing : Bool) (name attrs : Str) :
    convStep o st (.tag closing name attrs) =
      if isBlockTag name then
        (if st.cur.isEmpty then st else { st with paras := st.paras ++ [st.cur], cur := [] })
      else st := by
  by_cases hb : isBlockTag name
  · simp [convStep, hb]
  · simp only [convStep, hb, he, hl, hi, Bool.false_eq_true, if_false, if_true,
      Bool.true_or, Bool.or_self]
    split_ifs <;> rfl

theorem textFold_invariant (o : HTML2Text) (he : o.ignore_emphasis = true)
    (hl : o.ignore_links = true) (hi : o.ignore_images = true) :
    ∀ (toks : List HTok) (st : ConvState) (prev : Str),
      st.cur <:+ prev → (∀ q ∈ st.paras, q <:+: prev) →
      ((toks.foldl (convStep o) st).cur <:+ prev ++ toksData toks ∧
       ∀ q ∈ (toks.foldl (convStep o) st).paras, q <:+: prev ++ toksData toks) := by
  intro toks
  induction toks with
  | nil =>
    intro st prev h1 h2
    constructor
    · simpa [toksData] using h1
    · intro q hq
      simpa [toksData] using h2 q hq
  | cons t ts ih =>
    intro st prev h1 h2
    cases t with
    | ch c =>
      have hdata : toksData (HTok.ch c :: ts) = c :: toksData ts := rfl
      rw [List.foldl_cons, convStep_ch, hdata]
      have hcur : ({ st with cur := st.cur ++ [c] } : ConvState).cur <:+ prev ++ [c] := by
        obtain ⟨s, hs⟩ := h1
        exact ⟨s, by rw [← List.append_assoc, hs]⟩
      have hparas : ∀ q ∈ ({ st with cur := st.cur ++ [c] } : ConvState).paras,
          q <:+: prev ++ [c] := by
        intro q hq
        exact (h2 q hq).trans (List.prefix_append prev [c]).isInfix
      have := ih { st with cur := st.cur ++ [c] } (prev ++ [c]) hcur hparas
      constructor
      · have h3 := this.1
        rwa [List.append_assoc, List.singleton_append] at h3
      · intro q hq
        have h3 := this.2 q hq
        rwa [List.append_assoc, List.singleton_append] at h3
    | tag closing name attrs =>
      have hdata : toksData (HTok.tag closing name attrs :: ts) = toksData ts := rfl
      rw [List.foldl_cons, convStep_tag_text o he hl hi, hdata]
      by_cases hb : isBlockTag name
      · rw [if_pos hb]
        by_cases hcur : st.cur.isEmpty
        · rw [if_pos hcur]
          exact ih st prev h1 h2
        · rw [if_neg hcur]
          apply ih { st with paras := st.paras ++ [st.cur], cur := [] } prev
          · exact List.nil_suffix
          · intro q hq
            rcases List.mem_append.mp hq with hq1 | hq1
            · exact h2 q hq1
            · simp at hq1
              subst hq1
              exact h1.isInfix
      · rw [if_neg hb]
        exact ih st prev h1 h2

theorem textHandle_paras_inf (w : Option Nat) (l : Str) :
    ∀ q ∈ (((tokenize true l).foldl (convStep (textConv w)) ⟨[], [], []⟩).paras ++
        (if ((tokenize true l).foldl (convStep (textConv w)) ⟨[], [], []⟩).cur.isEmpty
         then []
         else [((tokenize true l).foldl (convStep (textConv w)) ⟨[], [], []⟩).cur])),
      q <:+: dataChars true l := by
  have hinv := textFold_invariant (textConv w) rfl rfl rfl (tokenize true l)
    ⟨[], [], []⟩ [] List.nil_suffix (by intro q hq; simp at hq)
  intro q hq
  rcases List.mem_append.mp hq with h1 | h1
  · simpa [dataChars] using hinv.2 q h1
  · by_cases hcur : ((tokenize true l).foldl (convStep (textConv w)) ⟨[], [], []⟩).cur.isEmpty
    · simp [hcur] at h1
    · simp only [hcur, Bool.false_eq_true, if_false, List.mem_singleton] at h1
      subst h1
      simpa [dataChars] using hinv.1.isInfix

theorem not_infix_paras_out (p : Str) (hne : p ≠ []) (hnl : '\n' ∉ p) :
    ∀ paras2 : List Str, (∀ q ∈ paras2, ¬ p <:+: q) →
    ¬ p <:+: joinSep ['\n', '\n'] paras2 ++ ['\n'] := by
  intro paras2 hnp2
  have hview : joinSep ['\n', '\n'] paras2 ++ ['\n'] =
      joinSep ['\n'] [joinSep ['\n', '\n'] paras2, []] := by
    show _ = joinSep ['\n', '\n'] paras2 ++ ['\n'] ++ joinSep ['\n'] [[]]
    rw [joinSep]
    simp
  rw [hview]
  apply not_infix_joinSep p ['\n'] hne (by simp) (by simpa using hnl)
  intro x hx
  rcases List.mem_cons.mp hx with h1 | h1
  · subst h1
    exact not_infix_joinSep p ['\n', '\n'] hne (by simp) (by simpa using hnl) paras2 hnp2
  · simp at h1
    subst h1
    intro hcon
    exact hne (by simpa [List.infix_nil] using hcon)

theorem textHandle_no_marker (w : Option Nat) (l : Str) (p : Str)
    (hne : p ≠ []) (hnl : '\n' ∉ p) (hsp : ' ' ∉ p)
    (hdata : ¬ p <:+: dataChars true l) :
    ¬ p <:+: handleChars (textConv w) l := by
  rw [handleChars, show (textConv w).convert_charrefs = true from rfl,
    show (textConv w).body_width = w from rfl]
  have hparas := textHandle_paras_inf w l
  have hnp1 : ∀ q ∈ (((tokenize true l).foldl (convStep (textConv w)) ⟨[], [], []⟩).paras ++
      (if ((tokenize true l).foldl (convStep (textConv w)) ⟨[], [], []⟩).cur.isEmpty
       then []
       else [((tokenize true l).foldl (convStep (textConv w)) ⟨[], [], []⟩).cur])),
      ¬ p <:+: q := by
    intro q hq hinf
    exact hdata (hinf.trans (hparas q hq))
  cases w with
  | none => exact not_infix_paras_out p hne hnl _ hnp1
  | some w2 =>
    apply not_infix_paras_out p hne hnl
    intro q hq
    simp only at hq
    rcases List.mem_map.mp hq with ⟨q0, hq0, rfl⟩
    exact wrapPara_not_inf p hne hnl hsp w2 q0 (hnp1 q0 hq0)

theorem textHandle_chars (w : Option Nat) (l : Str) (c : Char)
    (hc : c ∈ handleChars (textConv w) l) : c ∈ dataChars true l ∨ c = '\n' ∨ c = ' ' := by
  rw [handleChars, show (textConv w).convert_charrefs = true from rfl,
    show (textConv w).body_width = w from rfl] at hc
  have hparas := textHandle_paras_inf w l
  rcases List.mem_append.mp hc with h1 | h1
  · rcases mem_joinSep _ _ h1 with h2 | ⟨q2, hq2, hcq⟩
    · simp at h2
      exact Or.inr (Or.inl h2)
    · cases w with
      | none =>
        exact Or.inl ((hparas q2 hq2).sublist.subset hcq)
      | some w2 =>
        simp only at hq2
        rcases List.mem_map.mp hq2 with ⟨q0, hq0, rfl⟩
        rcases wrapPara_mem w2 q0 c hcq with h3 | h3
        · exact Or.inl ((hparas q0 hq0).sublist.subset h3)
        · exact Or.inr h3
  · simp at h1
    exact Or.inr (Or.inl h1)

theorem mem_dataChars {c : Char} {cr : Bool} {l : Str} (h : c ∈ dataChars cr l) :
    HTok.ch c ∈ tokenize cr l := by
  rw [dataChars, toksData] at h
  rcases List.mem_filterMap.mp h with ⟨t, ht, hf⟩
  cases t with
  | ch d =>
    simp at hf
    subst hf
    exact ht
  | tag closing name attrs => simp at hf

theorem textMode_unescape_id (w : Option Nat) (html : String) (hamp : '&' ∉ html.data) :
    (unescape ((textConv w).handle html)).data = handleChars (textConv w) html.data := by
  have hampout : '&' ∉ handleChars (textConv w) html.data := by
    intro hx
    rcases textHandle_chars w html.data '&' hx with h | h | h
    · exact hamp (tokenizeAux_data_subset true html.data.length html.data hamp '&'
        (mem_dataChars h))
    · exact absurd h (by decide)
    · exact absurd h (by decide)
  show unescapeChars (handleChars (textConv w) html.data) = _
  rw [unescapeChars]
  exact unescapeAux_id _ _ hampout le_rfl

/-- C8 is refuted as stated: literal marker characters in the source
character data pass through to the plain-text rendering, and so do marker
characters produced by doubly-escaped numeric character references even
when the source character data contains no marker sequence at all. -/
theorem claim8_counterexample :
    mainTransform [("content", .str "<p>**x**</p>")] none =
      some [("content", .obj [("html", .str "<p>**x**</p>"),
        ("markdown", .str "**x**\n"), ("text", .str "**x**\n")])] ∧
    ['*', '*'] <:+: "**x**\n".data ∧
    mainTransform [("content", .str "<p>&amp;#42;&amp;#42;</p>")] none =
      some [("content", .obj [("html", .str "<p>&amp;#42;&amp;#42;</p>"),
        ("markdown", .str "**\n"), ("text", .str "**\n")])] ∧
    ['*', '*'] <:+: "**\n".data ∧
    (∀ m ∈ mdMarkers, ¬ m <:+: dataChars true "<p>&amp;#42;&amp;#42;</p>".data) := by
  exact ⟨rfl, by decide, rfl, by decide, by decide⟩

/-- C8 (amended): the text-mode rendering introduces no Markdown emphasis
markers, image references or hyperlink syntax of its own — for every source
HTML string with no ampersand (hence no character references) whose
character data is free of the marker fragments, the `text` field produced
by the transformer is free of them as well, for every body width; emphasis,
image and link elements in the source contribute none.  (Per the
counterexample, literal marker characters in the character data, or
references decoding to them, do reach the output.) -/
theorem claim8_amended (html : String) (w : Option Nat) (r o : PyObj) (t : String)
    (hc : dictGet r "content" = some (.str html))
    (hm : mainTransform r w = some o)
    (ht : textField o = some t)
    (hamp : '&' ∉ html.data)
    (hmarks : ∀ m ∈ mdMarkers, ¬ m <:+: dataChars true html.data) :
    ∀ m ∈ mdMarkers, ¬ m <:+: t.data := by
  have hmo : o = dictSet r "content" (.obj
      [("html", .str html),
       ("markdown", .str (unescape ((markdownConv w).handle html))),
       ("text", .str (unescape ((textConv w).handle html)))]) := by
    rw [mainTransform, hc] at hm
    exact (Option.some.injEq _ _).mp hm.symm ▸ rfl
  have htf : textField o = some (unescape ((textConv w).handle html)) := by
    rw [hmo, textField, dictGet_dictSet_self]
    rfl
  have hteq : t = unescape ((textConv w).handle html) := by
    rw [htf] at ht
    exact (Option.some.injEq _ _).mp ht.symm
  subst hteq
  intro m hmem
  rw [textMode_unescape_id w html hamp]
  have hside : ∀ x ∈ mdMarkers, x ≠ [] ∧ '\n' ∉ x ∧ ' ' ∉ x := by decide
  exact textHandle_no_marker w html.data m (hside m hmem).1 (hside m hmem).2.1
    (hside m hmem).2.2 (hmarks m hmem)

/-- Witness for C8 (amended) at the specification's example
`<a href="x"><b>hi</b></a>`: the text rendering `hi` carries no emphasis
marker, no bracket and no link tail. -/
theorem claim8_amended_witness :
    ¬ ['*', '*'] <:+: "hi\n".data ∧ ¬ ['['] <:+: "hi\n".data ∧
    ¬ [']', '('] <:+: "hi\n".data := by
  have h := claim8_amended "<a href=\"x\"><b>hi</b></a>" none
    [("content", .str "<a href=\"x\"><b>hi</b></a>")]
    [("content", .obj [("html", .str "<a href=\"x\"><b>hi</b></a>"),
      ("markdown", .str "[**hi**](x)\n"), ("text", .str "hi\n")])]
    "hi\n" rfl rfl rfl (by decide) (by decide)
  exact ⟨h ['*', '*'] (by decide), h ['['] (by decide), h [']', '('] (by decide)⟩

theorem n_lt_ten_pow (n : Nat) : n < 10 ^ n := by
  induction n with
  | zero => norm_num
  | succ m ih =>
    have h1 : 0 < 10 ^ m := Nat.pos_pow_of_pos m (by norm_num)
    have h2 : 10 ^ (m + 1) = 10 * 10 ^ m := by ring
    omega

theorem digitChar_spec (m : Nat) (h : m < 10) :
    (digitChar m).isDigit = true ∧ digitVal (digitChar m) = m := by
  interval_cases m <;> exact ⟨by decide, by decide⟩

theorem valOfDigits_append (a : Str) (c : Char) :
    valOfDigits (a ++ [c]) = 10 * valOfDigits a + digitVal c := by
  rw [valOfDigits, List.foldl_append]
  simp [valOfDigits]
  ring

theorem natCharsAux_spec : ∀ (f n : Nat), n < 10 ^ f →
    (natCharsAux (f + 1) n).all Char.isDigit = true ∧ natCharsAux (f + 1) n ≠ [] ∧
    valOfDigits (natCharsAux (f + 1) n) = n := by
  intro f
  induction f with
  | zero =>
    intro n hn
    have : n = 0 := by omega
    subst this
    exact ⟨by decide, by decide, by decide⟩
  | succ f ih =>
    intro n hn
    by_cases h10 : n < 10
    · rw [natCharsAux, if_pos h10]
      refine ⟨by simpa using (digitChar_spec n h10).1, by simp, ?_⟩
      simp [valOfDigits, (digitChar_spec n h10).2]
    · rw [natCharsAux, if_neg h10]
      have hdiv : n / 10 < 10 ^ f := by
        rw [Nat.div_lt_iff_lt_mul (by norm_num)]
        calc n < 10 ^ (f + 1) := hn
        _ = 10 ^ f * 10 := by ring
      obtain ⟨ha, hb, hc⟩ := ih (n / 10) hdiv
      refine ⟨?_, by simp, ?_⟩
      · rw [List.all_append]
        simp only [ha, Bool.true_and]
        simpa using (digitChar_spec (n % 10) (Nat.mod_lt n (by norm_num))).1
      · rw [valOfDigits_append, hc, (digitChar_spec (n % 10) (Nat.mod_lt n (by norm_num))).2]
        omega

theorem natChars_spec (n : Nat) :
    (natChars n).all Char.isDigit = true ∧ natChars n ≠ [] ∧
    valOfDigits (natChars n) = n :=
  natCharsAux_spec n n (n_lt_ten_pow n)

theorem intChars_ne_nil (i : Int) : intChars i ≠ [] := by
  cases i with
  | ofNat n => exact (natChars_spec n).2.1
  | negSucc n => simp [intChars]

theorem isDigit_ne_of_decide {c : Char} (x : Char) (h : c.isDigit = true)
    (hx : x.isDigit = false) : c ≠ x := by
  intro he
  subst he
  rw [h] at hx
  exact Bool.noConfusion hx

theorem isDigit_not_ws {c : Char} (h : c.isDigit = true) : isWsChar c = false := by
  cases hb : isWsChar c
  · rfl
  · exfalso
    simp [isWsChar] at hb
    rcases hb with ((rfl | rfl) | rfl) | rfl <;> simp at h

theorem takeWhile_digits_append : ∀ (ds rest : Str), ds.all Char.isDigit = true →
    (∀ c, rest.head? = some c → c.isDigit = false) →
    (ds ++ rest).takeWhile Char.isDigit = ds ∧
    (ds ++ rest).dropWhile Char.isDigit = rest := by
  intro ds
  induction ds with
  | nil =>
    intro rest _ hrest
    cases rest with
    | nil => exact ⟨rfl, rfl⟩
    | cons c r =>
      have := hrest c rfl
      exact ⟨by simp [List.takeWhile_cons, this], by simp [List.dropWhile_cons, this]⟩
  | cons d ds ih =>
    intro rest hall hrest
    simp only [List.all_cons, Bool.and_eq_true] at hall
    have hd : d.isDigit = true := hall.1
    obtain ⟨h1, h2⟩ := ih rest hall.2 hrest
    exact ⟨by simp [List.takeWhile_cons, hd, h1], by simp [List.dropWhile_cons, hd, h2]⟩

theorem parseNum_natChars (n : Nat) (rest : Str)
    (hrest : ∀ c, rest.head? = some c → c.isDigit = false) :
    parseNum (natChars n ++ rest) = some ((n : Int), rest) := by
  obtain ⟨hall, hne, hval⟩ := natChars_spec n
  obtain ⟨c, t, hct⟩ : ∃ c t, natChars n = c :: t := by
    cases hc : natChars n with
    | nil => exact absurd hc hne
    | cons c t => exact ⟨c, t, rfl⟩
  have hcd : c.isDigit = true := by
    rw [hct] at hall
    simp only [List.all_cons, Bool.and_eq_true] at hall
    exact hall.1
  obtain ⟨htk, hdr⟩ := takeWhile_digits_append (natChars n) rest hall hrest
  rw [parseNum.eq_def]
  rw [hct, List.cons_append]
  have hcne : c ≠ '-' := isDigit_ne_of_decide '-' hcd (by decide)
  split
  · rename_i r heq
    exact absurd (List.cons.injEq _ _ _ _ |>.mp heq).1 hcne
  · rename_i heq
    rw [← List.cons_append, ← hct, htk, hdr]
    have : (natChars n).isEmpty = false := by
      rw [hct]; rfl
    rw [if_neg (by simp [this, hne]), hval]

theorem parseNum_intChars (i : Int) (rest : Str)
    (hrest : ∀ c, rest.head? = some c → c.isDigit = false) :
    parseNum (intChars i ++ rest) = some (i, rest) := by
  cases i with
  | ofNat n => exact parseNum_natChars n rest hrest
  | negSucc n =>
    obtain ⟨hall, hne, hval⟩ := natChars_spec (n + 1)
    obtain ⟨htk, hdr⟩ := takeWhile_digits_append (natChars (n + 1)) rest hall hrest
    rw [intChars, List.cons_append, parseNum, htk, hdr]
    rw [if_neg (by simp [hne]), hval]
    congr 1

theorem skipWs_cons_not {c : Char} (l : Str) (h : isWsChar c = false) :
    skipWs (c :: l) = c :: l := by
  simp [skipWs, List.dropWhile_cons, h]

theorem skipWs_pad : ∀ (pad l : Str), pad.all isWsChar = true →
    skipWs (pad ++ l) = skipWs l := by
  intro pad
  induction pad with
  | nil => intro l _; rfl
  | cons c p ih =>
    intro l hall
    simp only [List.all_cons, Bool.and_eq_true] at hall
    rw [List.cons_append, skipWs, List.dropWhile_cons, if_pos hall.1]
    exact ih l hall.2

theorem parseVal_pad (f : Nat) (pad l : Str) (h : pad.all isWsChar = true) :
    parseVal f (pad ++ l) = parseVal f l := by
  cases f with
  | zero => rfl
  | succ f => rw [parseVal, parseVal, skipWs_pad pad l h]

theorem parseStrBody_ser : ∀ (l : Str) (rest : Str), l.all wfChar = true →
    parseStrBody ((l.map escChar).flatten ++ '"' :: rest) = some (l, rest) := by
  intro l
  induction l with
  | nil => intro rest _; rfl
  | cons c l ih =>
    intro rest hall
    simp only [List.all_cons, Bool.and_eq_true] at hall
    have hih := ih rest hall.2
    rw [List.map_cons, List.flatten_cons, List.append_assoc]
    by_cases h1 : c = '"'
    · subst h1
      rw [show escChar '"' = ['\\', '"'] from rfl]
      simp only [List.cons_append, List.nil_append]
      rw [parseStrBody, show escCharOf '"' = some '"' from rfl]
      simp [hih]
    · by_cases h2 : c = '\\'
      · subst h2
        rw [show escChar '\\' = ['\\', '\\'] from rfl]
        simp only [List.cons_append, List.nil_append]
        rw [parseStrBody, show escCharOf '\\' = some '\\' from rfl]
        simp [hih]
      · by_cases h3 : c = '\n'
        · subst h3
          rw [show escChar '\n' = ['\\', 'n'] from rfl]
          simp only [List.cons_append, List.nil_append]
          rw [parseStrBody, show escCharOf 'n' = some '\n' from rfl]
          simp [hih]
        · by_cases h4 : c = '\t'
          · subst h4
            rw [show escChar '\t' = ['\\', 't'] from rfl]
            simp only [List.cons_append, List.nil_append]
            rw [parseStrBody, show escCharOf 't' = some '\t' from rfl]
            simp [hih]
          · by_cases h5 : c = '\r'
            · subst h5
              rw [show escChar '\r' = ['\\', 'r'] from rfl]
              simp only [List.cons_append, List.nil_append]
              rw [parseStrBody, show escCharOf 'r' = some '\r' from rfl]
              simp [hih]
            · have hesc : escChar c = [c] := by
                rw [escChar, if_neg h1, if_neg h2, if_neg h3, if_neg h4, if_neg h5]
              rw [hesc]
              simp only [List.cons_append, List.nil_append]
              have hge : (c.toNat < 32) = False := by
                have hw := hall.1
                simp only [wfChar, Bool.or_eq_true, beq_iff_eq, decide_eq_true_eq] at hw
                rcases hw with ((h | h) | h) | h
                · simp only [eq_iff_iff, iff_false, not_lt]
                  omega
                · exact absurd h h3
                · exact absurd h h4
                · exact absurd h h5
              rw [parseStrBody.eq_def]
              split
              · rename_i heq
                cases heq
              · rename_i r heq
                exact absurd (List.cons.injEq _ _ _ _ |>.mp heq).1 h1
              · rename_i e r heq
                exact absurd (List.cons.injEq _ _ _ _ |>.mp heq).1 h2
              · rename_i x r heq
                obtain ⟨hx, hr⟩ := List.cons.injEq _ _ _ _ |>.mp heq
                subst hx
                rw [← hr, if_neg (by simp [hge]), hih]
                rfl

theorem digit_head_good {c : Char} (h : c.isDigit = true) :
    isWsChar c = false ∧ c ≠ ']' ∧ c ≠ '\x7d' :=
  ⟨isDigit_not_ws h, isDigit_ne_of_decide _ h (by decide),
    isDigit_ne_of_decide _ h (by decide)⟩

theorem serVal_head (v : Val) (s : Str) (h : serVal v = some s) :
    ∃ c t, s = c :: t ∧ isWsChar c = false ∧ c ≠ ']' ∧ c ≠ '\x7d' := by
  cases v with
  | str s0 =>
    rw [serVal, serStrChars] at h
    cases h
    exact ⟨_, _, rfl, by decide, by decide, by decide⟩
  | num i =>
    rw [serVal] at h
    cases h
    cases i with
    | ofNat n =>
      obtain ⟨hall, hne, _⟩ := natChars_spec n
      cases hc : natChars n with
      | nil => exact absurd hc hne
      | cons c t =>
        rw [hc] at hall
        simp only [List.all_cons, Bool.and_eq_true] at hall
        obtain ⟨g1, g2, g3⟩ := digit_head_good hall.1
        exact ⟨c, t, by rw [intChars, hc], g1, g2, g3⟩
    | negSucc n => exact ⟨'-', _, rfl, by decide, by decide, by decide⟩
  | bool b =>
    rw [serVal] at h
    cases b <;> cases h
    · exact ⟨'f', _, rfl, by decide, by decide, by decide⟩
    · exact ⟨'t', _, rfl, by decide, by decide, by decide⟩
  | null =>
    rw [serVal] at h
    cases h
    exact ⟨'n', _, rfl, by decide, by decide, by decide⟩
  | pydate d => rw [serVal] at h; cases h
  | arr xs =>
    rw [serVal] at h
    cases hsi : serItems xs with
    | none => rw [hsi] at h; cases h
    | some li =>
      rw [hsi] at h
      cases h
      exact ⟨'[', _, rfl, by decide, by decide, by decide⟩
  | obj fs =>
    rw [serVal] at h
    cases hsf : serFields fs with
    | none => rw [hsf] at h; cases h
    | some lf =>
      rw [hsf] at h
      cases h
      exact ⟨'\x7b', _, rfl, by decide, by decide, by decide⟩

theorem serVal_size : ∀ v : Val, ∀ s, serVal v = some s → vsize v ≤ s.length := by
  apply Val.inductionOn
    (P := fun v => ∀ s, serVal v = some s → vsize v ≤ s.length)
    (Q := fun xs => ∀ s, serItems xs = some s → lsize xs ≤ s.length + 1)
    (R := fun fs => ∀ s, serFields fs = some s → fsize fs ≤ s.length + 1)
  · intro s0 s h
    rw [serVal, serStrChars] at h
    cases h
    simp [vsize]
  · intro i s h
    rw [serVal] at h
    cases h
    have := intChars_ne_nil i
    rw [vsize]
    cases hc : intChars i with
    | nil => exact absurd hc this
    | cons c t => simp
  · intro b s h
    rw [serVal] at h
    cases b <;> cases h <;> simp [vsize]
  · intro s h
    rw [serVal] at h
    cases h
    simp [vsize]
  · intro d s h
    rw [serVal] at h
    cases h
  · intro xs hq s h
    rw [serVal] at h
    cases hsi : serItems xs with
    | none => rw [hsi] at h; cases h
    | some li =>
      rw [hsi] at h
      cases h
      have := hq li hsi
      rw [vsize]
      simp only [List.length_cons, List.length_append, List.length_cons, List.length_nil]
      omega
  · intro fs hr s h
    rw [serVal] at h
    cases hsf : serFields fs with
    | none => rw [hsf] at h; cases h
    | some lf =>
      rw [hsf] at h
      cases h
      have := hr lf hsf
      rw [vsize]
      simp only [List.length_cons, List.length_append, List.length_cons, List.length_nil]
      omega
  · intro s h
    rw [serItems] at h
    cases h
    simp [lsize]
  · intro v vs hp hq s h
    rw [serItems] at h
    cases hsv : serVal v with
    | none => rw [hsv] at h; simp at h
    | some a =>
      rw [hsv] at h
      cases hsi : serItems vs with
      | none => rw [hsi] at h; simp at h
      | some b =>
        rw [hsi] at h
        have hs := Option.some.inj h
        have hva := hp a hsv
        have hvb := hq b hsi
        rw [← hs, lsize]
        by_cases he : vs.isEmpty
        · simp only [he, if_pos]
          have : vs = [] := by
            cases vs with
            | nil => rfl
            | cons x xs => simp [List.isEmpty] at he
          subst this
          rw [serItems] at hsi
          cases hsi
          simp only [List.length_append, List.length_nil]
          simp [lsize]
          omega
        · simp only [he, Bool.false_eq_true, if_false]
          simp only [List.length_append, List.length_cons, List.length_nil]
          omega
  · intro s h
    rw [serFields] at h
    cases h
    simp [fsize]
  · intro k v fs hp hr s h
    rw [serFields] at h
    cases hsv : serVal v with
    | none => rw [hsv] at h; simp at h
    | some a =>
      rw [hsv] at h
      cases hsf : serFields fs with
      | none => rw [hsf] at h; simp at h
      | some b =>
        rw [hsf] at h
        have hs := Option.some.inj h
        have hva := hp a hsv
        have hvb := hr b hsf
        rw [← hs, fsize]
        simp only [serStrChars, List.length_append, List.length_cons]
        by_cases he : fs.isEmpty
        · simp only [he, if_pos, List.length_nil]
          omega
        · simp only [he, Bool.false_eq_true, if_false, List.length_cons, List.length_nil]
          omega

theorem serVal_total : ∀ v : Val, wfVal v = true → (serVal v).isSome = true := by
  apply Val.inductionOn
    (P := fun v => wfVal v = true → (serVal v).isSome = true)
    (Q := fun xs => wfItems xs = true → (serItems xs).isSome = true)
    (R := fun fs => wfFields fs = true → (serFields fs).isSome = true)
  · intro s _; simp [serVal]
  · intro i _; simp [serVal]
  · intro b _; cases b <;> simp [serVal]
  · intro _; simp [serVal]
  · intro d h; simp [wfVal] at h
  · intro xs hq h
    rw [wfVal] at h
    have := hq h
    rw [serVal]
    cases hsi : serItems xs with
    | none => rw [hsi] at this; simp at this
    | some li => simp
  · intro fs hr h
    rw [wfVal] at h
    have := hr h
    rw [serVal]
    cases hsf : serFields fs with
    | none => rw [hsf] at this; simp at this
    | some lf => simp
  · intro _; simp [serItems]
  · intro v vs hp hq h
    rw [wfItems, Bool.and_eq_true] at h
    have h1 := hp h.1
    have h2 := hq h.2
    rw [serItems]
    cases hsv : serVal v with
    | none => rw [hsv] at h1; simp at h1
    | some a =>
      cases hsi : serItems vs with
      | none => rw [hsi] at h2; simp at h2
      | some b => simp
  · intro _; simp [serFields]
  · intro k v fs hp hr h
    rw [wfFields] at h
    simp only [Bool.and_eq_true] at h
    have h1 := hp h.1.1.2
    have h2 := hr h.2
    rw [serFields]
    cases hsv : serVal v with
    | none => rw [hsv] at h1; simp at h1
    | some a =>
      cases hsf : serFields fs with
      | none => rw [hsf] at h2; simp at h2
      | some b => simp

theorem dictSet_fresh {α : Type} (d : List (String × α)) (k : String) (v : α)
    (h : k ∉ dictKeys d) : dictSet d k v = d ++ [(k, v)] := by
  induction d with
  | nil => rfl
  | cons p rest ih =>
    obtain ⟨k1, v1⟩ := p
    have hk1 : k1 ≠ k := by
      intro he
      exact h (by simp [dictKeys, he])
    rw [dictSet, if_neg hk1, ih (fun hx => h (by simp [dictKeys] at hx ⊢; exact Or.inr hx))]
    rfl

theorem buildDict_go : ∀ (fs acc : PyObj), wfFields fs = true →
    (∀ k ∈ dictKeys fs, k ∉ dictKeys acc) →
    fs.foldl (fun d p => dictSet d p.1 p.2) acc = acc ++ fs := by
  intro fs
  induction fs with
  | nil => intro acc _ _; simp
  | cons p rest ih =>
    intro acc hwf hfresh
    obtain ⟨k, v⟩ := p
    rw [wfFields] at hwf
    simp only [Bool.and_eq_true] at hwf
    rw [List.foldl_cons]
    have hka : k ∉ dictKeys acc := hfresh k (by simp [dictKeys])
    rw [dictSet_fresh acc k v hka]
    rw [ih (acc ++ [(k, v)]) hwf.2 ?_]
    · simp
    · intro k2 hk2 hx
      rw [dictKeys, List.map_append] at hx
      rcases List.mem_append.mp hx with h1 | h1
      · exact hfresh k2 (by simp [dictKeys] at hk2 ⊢; exact Or.inr hk2) h1
      · simp at h1
        subst h1
        have := hwf.1.2
        simp only [Bool.not_eq_true'] at this
        rw [dictKeys] at hk2
        have hcon : (dictKeys rest).contains k2 = true := List.elem_eq_true_of_mem hk2
        rw [this] at hcon
        exact Bool.noConfusion hcon

theorem buildDict_wf (fs : PyObj) (h : wfFields fs = true) : buildDict fs = fs := by
  rw [buildDict, buildDict_go fs [] h (by simp [dictKeys])]
  rfl

theorem vsize_pos : ∀ v : Val, 1 ≤ vsize v := by
  intro v
  cases v <;> simp [vsize]

theorem vsize_le_lsize_of_mem : ∀ (xs : List Val) (x : Val), x ∈ xs → vsize x ≤ lsize xs := by
  intro xs
  induction xs with
  | nil => intro x hx; simp at hx
  | cons v vs ih =>
    intro x hx
    rcases List.mem_cons.mp hx with rfl | hx
    · rw [lsize]; omega
    · have := ih x hx
      rw [lsize]
      omega

theorem vsize_le_fsize_of_mem : ∀ (fs : List (String × Val)) (p : String × Val),
    p ∈ fs → vsize p.2 ≤ fsize fs := by
  intro fs
  induction fs with
  | nil => intro p hp; simp at hp
  | cons q qs ih =>
    intro p hp
    obtain ⟨k, v⟩ := q
    rcases List.mem_cons.mp hp with rfl | hp
    · show vsize v ≤ fsize ((k, v) :: qs)
      rw [fsize]
      omega
    · have := ih p hp
      rw [fsize]
      omega

theorem lsize_pos (v : Val) (vs : List Val) : 1 ≤ lsize (v :: vs) := by
  rw [lsize]; omega

theorem fsize_pos (p : String × Val) (fs : List (String × Val)) : 1 ≤ fsize (p :: fs) := by
  obtain ⟨k, v⟩ := p
  rw [fsize]; omega


theorem parseVal_succ_default (f : Nat) (c : Char) (t : Str) (hws : isWsChar c = false)
    (h1 : c ≠ '"') (h2 : c ≠ '[') (h3 : c ≠ '\x7b') (h4 : c ≠ 'n') (h5 : c ≠ 't')
    (h6 : c ≠ 'f') :
    parseVal (f + 1) (c :: t) = (parseNum (c :: t)).map (fun p => (Val.num p.1, p.2)) := by
  rw [parseVal, skipWs_cons_not t hws]
  show (if c = '"' then (parseStrBody t).map (fun p => (Val.str (String.mk p.1), p.2))
        else if c = '[' then
          (match skipWs t with
           | ']' :: r2 => some (Val.arr [], r2)
           | r2 => (parseItems (parseVal f) f r2).map (fun p => (Val.arr p.1, p.2)))
        else if c = '\x7b' then
          (match skipWs t with
           | '\x7d' :: r2 => some (Val.obj [], r2)
           | r2 => (parsePairs (parseVal f) f r2).map (fun p => (Val.obj (buildDict p.1), p.2)))
        else if c = 'n' then
          (match t with
           | 'u' :: 'l' :: 'l' :: r2 => some (Val.null, r2)
           | _ => none)
        else if c = 't' then
          (match t with
           | 'r' :: 'u' :: 'e' :: r2 => some (Val.bool true, r2)
           | _ => none)
        else if c = 'f' then
          (match t with
           | 'a' :: 'l' :: 's' :: 'e' :: r2 => some (Val.bool false, r2)
           | _ => none)
        else (parseNum (c :: t)).map (fun p => (Val.num p.1, p.2))) = _
  rw [if_neg h1, if_neg h2, if_neg h3, if_neg h4, if_neg h5, if_neg h6]

theorem head_not_digit_cons (c : Char) (hx : c.isDigit = false) (l : Str) :
    ∀ x, (c :: l).head? = some x → x.isDigit = false := by
  intro x hxx
  cases hxx
  exact hx

theorem parseVal_roundtrip : ∀ v : Val, wfVal v = true → ∀ s, serVal v = some s →
    ∀ fuel, vsize v ≤ fuel → ∀ rest, (∀ c, rest.head? = some c → c.isDigit = false) →
    parseVal fuel (s ++ rest) = some (v, rest) := by
  apply Val.inductionOn
    (P := fun v => wfVal v = true → ∀ s, serVal v = some s →
      ∀ fuel, vsize v ≤ fuel → ∀ rest, (∀ c, rest.head? = some c → c.isDigit = false) →
      parseVal fuel (s ++ rest) = some (v, rest))
    (Q := fun xs => wfItems xs = true → xs ≠ [] → ∀ s, serItems xs = some s →
      ∀ g, (∀ x ∈ xs, vsize x ≤ g) → ∀ fuel, lsize xs ≤ fuel →
      ∀ pad, pad.all isWsChar = true →
      ∀ rest, parseItems (parseVal g) fuel (pad ++ (s ++ ']' :: rest)) = some (xs, rest))
    (R := fun fs => wfFields fs = true → fs ≠ [] → ∀ s, serFields fs = some s →
      ∀ g, (∀ p ∈ fs, vsize p.2 ≤ g) → ∀ fuel, fsize fs ≤ fuel →
      ∀ pad, pad.all isWsChar = true →
      ∀ rest, parsePairs (parseVal g) fuel (pad ++ (s ++ '\x7d' :: rest)) = some (fs, rest))
  · -- strings
    intro t hwf s hser fuel hfuel rest hrest
    obtain ⟨td⟩ := t
    rw [serVal, serStrChars] at hser
    cases hser
    rw [vsize] at hfuel
    cases fuel with
    | zero => omega
    | succ f =>
      rw [parseVal]
      show (parseStrBody ((List.map escChar td).flatten ++ ['"'] ++ rest)).map
        (fun p => (Val.str (String.mk p.1), p.2)) = _
      rw [List.append_assoc, List.singleton_append,
        parseStrBody_ser td rest (by simpa [wfVal, wfStr] using hwf)]
      rfl
  · -- numbers
    intro i hwf s hser fuel hfuel rest hrest
    rw [serVal] at hser
    cases hser
    rw [vsize] at hfuel
    cases fuel with
    | zero => omega
    | succ f =>
      have hnum := parseNum_intChars i rest hrest
      cases i with
      | ofNat n =>
        obtain ⟨hall, hne, hval⟩ := natChars_spec n
        cases hc : natChars n with
        | nil => exact absurd hc hne
        | cons c t =>
          have hcd : c.isDigit = true := by
            rw [hc] at hall
            simp only [List.all_cons, Bool.and_eq_true] at hall
            exact hall.1
          rw [show intChars (Int.ofNat n) = natChars n from rfl, hc] at hnum ⊢
          rw [List.cons_append]
          rw [parseVal_succ_default f c (t ++ rest) (isDigit_not_ws hcd)
            (isDigit_ne_of_decide _ hcd (by decide)) (isDigit_ne_of_decide _ hcd (by decide))
            (isDigit_ne_of_decide _ hcd (by decide)) (isDigit_ne_of_decide _ hcd (by decide))
            (isDigit_ne_of_decide _ hcd (by decide)) (isDigit_ne_of_decide _ hcd (by decide))]
          rw [← List.cons_append, hnum]
          rfl
      | negSucc n =>
        rw [show intChars (Int.negSucc n) = '-' :: natChars (n + 1) from rfl] at hnum ⊢
        rw [List.cons_append]
        rw [parseVal_succ_default f '-' (natChars (n + 1) ++ rest) (by decide) (by decide)
          (by decide) (by decide) (by decide) (by decide) (by decide)]
        rw [← List.cons_append, hnum]
        rfl
  · -- booleans
    intro b hwf s hser fuel hfuel rest hrest
    rw [serVal] at hser
    rw [vsize] at hfuel
    cases fuel with
    | zero => omega
    | succ f => cases b <;> cases hser <;> rfl
  · -- null
    intro hwf s hser fuel hfuel rest hrest
    rw [serVal] at hser
    cases hser
    rw [vsize] at hfuel
    cases fuel with
    | zero => omega
    | succ f => rfl
  · -- datetimes are not serializable
    intro d hwf s hser fuel hfuel rest hrest
    simp [wfVal] at hwf
  · -- arrays
    intro xs hq hwf s hser fuel hfuel rest hrest
    rw [serVal] at hser
    cases hsi : serItems xs with
    | none => rw [hsi] at hser; cases hser
    | some li =>
      rw [hsi] at hser
      cases hser
      rw [vsize] at hfuel
      cases fuel with
      | zero => omega
      | succ f =>
        cases xs with
        | nil =>
          rw [serItems] at hsi
          cases hsi
          rfl
        | cons x xs2 =>
          have hsiFull := hsi
          rw [serItems] at hsi
          cases hsvx : serVal x with
          | none => rw [hsvx] at hsi; simp at hsi
          | some a =>
            rw [hsvx] at hsi
            cases hsi2 : serItems xs2 with
            | none => rw [hsi2] at hsi; simp at hsi
            | some b =>
              rw [hsi2] at hsi
              have hli := Option.some.inj hsi
              obtain ⟨c, t, hct, hcws, hcbr, _⟩ := serVal_head x a hsvx
              rw [wfVal] at hwf
              have hinput : ('[' :: li ++ [']']) ++ rest = '[' :: (li ++ ']' :: rest) := by
                simp
              rw [hinput, parseVal]
              show (match skipWs (li ++ ']' :: rest) with
                    | ']' :: r2 => some (Val.arr [], r2)
                    | r2 => (parseItems (parseVal f) f r2).map
                        (fun p : List Val × Str => (Val.arr p.1, p.2))) = _
              have hliT : li = c :: (t ++ ((if xs2.isEmpty then [] else [',', ' ']) ++ b)) := by
                rw [← hli, hct]
                simp
              rw [hliT, List.cons_append, skipWs_cons_not _ hcws]
              split
              · rename_i heq
                exact absurd ((List.cons.injEq _ _ _ _).mp heq).1 hcbr
              · have hback : li ++ ']' :: rest =
                    c :: ((t ++ ((if xs2.isEmpty then [] else [',', ' ']) ++ b)) ++ ']' :: rest) := by
                  rw [hliT, List.cons_append]
                have hlsz : lsize (x :: xs2) ≤ f := by omega
                have hg : ∀ y ∈ x :: xs2, vsize y ≤ f :=
                  fun y hy => le_trans (vsize_le_lsize_of_mem _ y hy) hlsz
                have hQ := hq hwf (by simp) li hsiFull f hg f hlsz [] (by decide) rest
                rw [List.nil_append, hback] at hQ
                rw [hQ]
                rfl
  · -- objects
    intro fs hr hwf s hser fuel hfuel rest hrest
    rw [serVal] at hser
    cases hsf : serFields fs with
    | none => rw [hsf] at hser; cases hser
    | some lf =>
      rw [hsf] at hser
      cases hser
      rw [vsize] at hfuel
      cases fuel with
      | zero => omega
      | succ f =>
        cases fs with
        | nil =>
          rw [serFields] at hsf
          cases hsf
          rfl
        | cons q fs2 =>
          obtain ⟨k, v⟩ := q
          have hsfFull := hsf
          rw [serFields] at hsf
          cases hsvx : serVal v with
          | none => rw [hsvx] at hsf; simp at hsf
          | some a =>
            rw [hsvx] at hsf
            cases hsf2 : serFields fs2 with
            | none => rw [hsf2] at hsf; simp at hsf
            | some b =>
              rw [hsf2] at hsf
              have hlf := Option.some.inj hsf
              rw [wfVal] at hwf
              have hinput : ('\x7b' :: lf ++ ['\x7d']) ++ rest = '\x7b' :: (lf ++ '\x7d' :: rest) := by
                simp
              rw [hinput, parseVal]
              show (match skipWs (lf ++ '\x7d' :: rest) with
                    | '\x7d' :: r2 => some (Val.obj [], r2)
                    | r2 => (parsePairs (parseVal f) f r2).map
                        (fun p : List (String × Val) × Str => (Val.obj (buildDict p.1), p.2))) = _
              have hlfT : lf = '"' :: ((k.data.map escChar).flatten ++
                  ('"' :: ':' :: ' ' :: (a ++ ((if fs2.isEmpty then [] else [',', ' ']) ++ b)))) := by
                rw [← hlf, serStrChars]
                simp
              rw [hlfT, List.cons_append, skipWs_cons_not _ (by decide)]
              split
              · rename_i heq
                exact absurd ((List.cons.injEq _ _ _ _).mp heq).1 (by decide)
              · have hback : lf ++ '\x7d' :: rest =
                    '"' :: (((k.data.map escChar).flatten ++
                      ('"' :: ':' :: ' ' :: (a ++ ((if fs2.isEmpty then [] else [',', ' ']) ++ b)))) ++
                      '\x7d' :: rest) := by
                  rw [hlfT, List.cons_append]
                have hfsz : fsize ((k, v) :: fs2) ≤ f := by omega
                have hg : ∀ p ∈ (k, v) :: fs2, vsize p.2 ≤ f :=
                  fun p hp => le_trans (vsize_le_fsize_of_mem _ p hp) hfsz
                have hR := hr hwf (by simp) lf hsfFull f hg f hfsz [] (by decide) rest
                rw [List.nil_append, hback] at hR
                rw [hR]
                show some (Val.obj (buildDict ((k, v) :: fs2)), rest) = _
                rw [buildDict_wf _ hwf]
  · -- item lists: nil is excluded
    intro hwf hne
    exact absurd rfl hne
  · -- item lists: cons
    intro v vs hp hqv hwf hne s hser g hg fuel hfuel pad hpad rest
    have hser' := hser
    rw [serItems] at hser'
    cases hsv : serVal v with
    | none => rw [hsv] at hser'; simp at hser'
    | some a =>
      rw [hsv] at hser'
      cases hsi2 : serItems vs with
      | none => rw [hsi2] at hser'; simp at hser'
      | some b =>
        rw [hsi2] at hser'
        have hs := Option.some.inj hser'
        rw [wfItems, Bool.and_eq_true] at hwf
        cases fuel with
        | zero => rw [lsize] at hfuel; omega
        | succ f =>
          rw [lsize] at hfuel
          rw [parseItems]
          by_cases hvs : vs.isEmpty
          · have hvsnil : vs = [] := by
              cases vs with
              | nil => rfl
              | cons _ _ => simp at hvs
            subst hvsnil
            rw [serItems] at hsi2
            cases hsi2
            have hsa : s = a := by rw [← hs]; simp
            have hp1 : parseVal g (pad ++ (s ++ ']' :: rest)) = some (v, ']' :: rest) := by
              rw [parseVal_pad g pad _ hpad, hsa]
              exact hp hwf.1 a hsv g (hg v (by simp)) (']' :: rest)
                (head_not_digit_cons ']' (by decide) _)
            rw [hp1]
            rfl
          · have hvsne : vs ≠ [] := by
              cases vs with
              | nil => simp at hvs
              | cons _ _ => simp
            have hsa : s = (a ++ [',', ' ']) ++ b := by
              rw [← hs]
              simp [hvs]
            have hp1 : parseVal g (pad ++ (s ++ ']' :: rest)) =
                some (v, ',' :: ' ' :: (b ++ ']' :: rest)) := by
              rw [parseVal_pad g pad _ hpad, hsa]
              have hre : ((a ++ [',', ' ']) ++ b) ++ ']' :: rest =
                  a ++ (',' :: ' ' :: (b ++ ']' :: rest)) := by simp
              rw [hre]
              exact hp hwf.1 a hsv g (hg v (by simp)) _
                (head_not_digit_cons ',' (by decide) _)
            rw [hp1]
            show (parseItems (parseVal g) f (' ' :: (b ++ ']' :: rest))).map
              (fun p => (v :: p.1, p.2)) = _
            have hlsz : lsize vs ≤ f := by
              have := vsize_pos v
              omega
            have hQ := hqv hwf.2 hvsne b hsi2 g (fun y hy => hg y (by simp [hy])) f hlsz
              [' '] (by decide) rest
            rw [show (' ' :: (b ++ ']' :: rest)) = [' '] ++ (b ++ ']' :: rest) from rfl, hQ]
            rfl
  · -- member lists: nil is excluded
    intro hwf hne
    exact absurd rfl hne
  · -- member lists: cons
    intro k v fs hp hrv hwf hne s hser g hg fuel hfuel pad hpad rest
    obtain ⟨kd⟩ := k
    have hser' := hser
    rw [serFields] at hser'
    cases hsv : serVal v with
    | none => rw [hsv] at hser'; simp at hser'
    | some a =>
      rw [hsv] at hser'
      cases hsf2 : serFields fs with
      | none => rw [hsf2] at hser'; simp at hser'
      | some b =>
        rw [hsf2] at hser'
        have hs := Option.some.inj hser'
        rw [wfFields] at hwf
        simp only [Bool.and_eq_true] at hwf
        cases fuel with
        | zero =>
          have := fsize_pos (String.mk kd, v) fs
          omega
        | succ f =>
          rw [fsize] at hfuel
          rw [parsePairs, skipWs_pad _ _ hpad]
          have hsform : s ++ '\x7d' :: rest =
              '"' :: ((kd.map escChar).flatten ++ ('"' :: ':' :: ' ' ::
                (a ++ ((if fs.isEmpty then [] else [',', ' ']) ++ (b ++ '\x7d' :: rest))))) := by
            rw [← hs, serStrChars]
            simp
          rw [hsform]
          show (do
              let (k1, r1) ← parseStrBody ((kd.map escChar).flatten ++ ('"' :: ':' :: ' ' ::
                (a ++ ((if fs.isEmpty then [] else [',', ' ']) ++ (b ++ '\x7d' :: rest)))))
              match skipWs r1 with
              | c2 :: r2 =>
                  if c2 = ':' then do
                    let (v1, r3) ← parseVal g r2
                    match skipWs r3 with
                    | c3 :: r4 =>
                        if c3 = ',' then
                          (parsePairs (parseVal g) f r4).map
                            (fun p : List (String × Val) × Str => ((String.mk k1, v1) :: p.1, p.2))
                        else if c3 = '\x7d' then some ([(String.mk k1, v1)], r4)
                        else none
                    | [] => none
                  else none
              | [] => none) = _
          have hstr := parseStrBody_ser kd (':' :: ' ' ::
            (a ++ ((if fs.isEmpty then [] else [',', ' ']) ++ (b ++ '\x7d' :: rest))))
            (by simpa [wfStr] using hwf.1.1.1)
          rw [show ((kd.map escChar).flatten ++ ('"' :: ':' :: ' ' ::
              (a ++ ((if fs.isEmpty then [] else [',', ' ']) ++ (b ++ '\x7d' :: rest))))) =
            ((kd.map escChar).flatten ++ '"' :: (':' :: ' ' ::
              (a ++ ((if fs.isEmpty then [] else [',', ' ']) ++ (b ++ '\x7d' :: rest))))) from rfl,
            hstr]
          show (do
              let (v1, r3) ← parseVal g (' ' :: (a ++
                ((if fs.isEmpty then [] else [',', ' ']) ++ (b ++ '\x7d' :: rest))))
              match skipWs r3 with
              | c3 :: r4 =>
                  if c3 = ',' then
                    (parsePairs (parseVal g) f r4).map
                      (fun p : List (String × Val) × Str => ((String.mk kd, v1) :: p.1, p.2))
                  else if c3 = '\x7d' then some ([(String.mk kd, v1)], r4)
                  else none
              | [] => none) = _
          by_cases hfs : fs.isEmpty
          · have hfsnil : fs = [] := by
              cases fs with
              | nil => rfl
              | cons _ _ => simp at hfs
            subst hfsnil
            rw [serFields] at hsf2
            cases hsf2
            have hp1 : parseVal g (' ' :: (a ++ ((if ([] : List (String × Val)).isEmpty
                then [] else [',', ' ']) ++ ([] ++ '\x7d' :: rest)))) =
                some (v, '\x7d' :: rest) := by
              have hre : (' ' :: (a ++ ((if ([] : List (String × Val)).isEmpty
                  then ([] : Str) else [',', ' ']) ++ ([] ++ '\x7d' :: rest)))) =
                  [' '] ++ (a ++ '\x7d' :: rest) := by simp
              rw [hre, parseVal_pad g [' '] _ (by decide)]
              exact hp hwf.1.1.2 a hsv g (hg (String.mk kd, v) (by simp)) _
                (head_not_digit_cons '\x7d' (by decide) _)
            rw [hp1]
            rfl
          · have hfsne : fs ≠ [] := by
              cases fs with
              | nil => simp at hfs
              | cons _ _ => simp
            have hp1 : parseVal g (' ' :: (a ++ ((if fs.isEmpty then [] else [',', ' ']) ++
                (b ++ '\x7d' :: rest)))) =
                some (v, ',' :: ' ' :: (b ++ '\x7d' :: rest)) := by
              have hre : (' ' :: (a ++ ((if fs.isEmpty then ([] : Str) else [',', ' ']) ++
                  (b ++ '\x7d' :: rest)))) =
                  [' '] ++ (a ++ (',' :: ' ' :: (b ++ '\x7d' :: rest))) := by
                simp [hfs]
              rw [hre, parseVal_pad g [' '] _ (by decide)]
              exact hp hwf.1.1.2 a hsv g (hg (String.mk kd, v) (by simp)) _
                (head_not_digit_cons ',' (by decide) _)
            rw [hp1]
            show (parsePairs (parseVal g) f (' ' :: (b ++ '\x7d' :: rest))).map
              (fun p => ((String.mk kd, v) :: p.1, p.2)) = _
            have hfsz : fsize fs ≤ f := by
              have := vsize_pos v
              omega
            have hR := hrv hwf.2 hfsne b hsf2 g (fun p hp2 => hg p (by simp [hp2])) f hfsz
              [' '] (by decide) rest
            rw [show (' ' :: (b ++ '\x7d' :: rest)) = [' '] ++ (b ++ '\x7d' :: rest) from rfl,
              hR]
            rfl

/-- **C7.** For every well-formed result object (as produced by the
transformer, before any date normalization — so every value is a string,
integer, boolean, null, array, or string-keyed object with distinct keys),
the `json` formatter succeeds, parsing its output as JSON reproduces
exactly the original object's keys and values, and non-ASCII characters
appear unescaped in the serialized text: every character with code point
at least 128 is emitted as itself by the string serializer. -/
theorem claim7_roundtrip (obj : PyObj) (hwf : wfVal (Val.obj obj) = true) :
    ∃ out : String, json_format obj = some (out, obj) ∧
      loads out = some (Val.obj obj) ∧
      ∀ c : Char, 128 ≤ c.toNat → escChar c = [c] := by
  have hts := serVal_total (Val.obj obj) hwf
  cases hser : serVal (Val.obj obj) with
  | none => rw [hser] at hts; cases hts
  | some s =>
    refine ⟨String.mk s, ?_, ?_, ?_⟩
    · show (dumps (Val.obj obj)).map (fun t => (t, obj)) = _
      rw [dumps, hser]
      rfl
    · have hsz := serVal_size (Val.obj obj) s hser
      have hpv := parseVal_roundtrip (Val.obj obj) hwf s hser (s.length + 1)
        (by omega) [] (by intro c hc; simp at hc)
      rw [List.append_nil] at hpv
      show (match parseVal (s.length + 1) s with
            | some (v, rest) => if (skipWs rest).isEmpty then some v else none
            | none => none) = some (Val.obj obj)
      rw [hpv]
      rfl
    · intro c hc
      have h1 : c ≠ '"' := fun h => by subst h; exact absurd hc (by decide)
      have h2 : c ≠ '\\' := fun h => by subst h; exact absurd hc (by decide)
      have h3 : c ≠ '\n' := fun h => by subst h; exact absurd hc (by decide)
      have h4 : c ≠ '\t' := fun h => by subst h; exact absurd hc (by decide)
      have h5 : c ≠ '\r' := fun h => by subst h; exact absurd hc (by decide)
      rw [escChar, if_neg h1, if_neg h2, if_neg h3, if_neg h4, if_neg h5]

theorem claim7_roundtrip_witness :
    wfVal (Val.obj c7obj) = true ∧
    (∃ out : String, json_format c7obj = some (out, c7obj) ∧
      loads out = some (Val.obj c7obj) ∧
      ∀ c : Char, 128 ≤ c.toNat → escChar c = [c]) :=
  ⟨by decide, claim7_roundtrip c7obj (by decide)⟩
